import Mathlib

/-!
Verification development for the crash-safe indexed record store of the
`2525-POO-Alava-Leandro` repository.

Two concrete variants are embedded from the source:

* `S910` — `src/Semana9-10/GestionInventario.py`: a list-backed store with a
  line-based (`|`-delimited) persisted file, synchronous atomic persistence
  inside every mutating operation, and in-memory rollback when persistence
  fails.
* `S11` — `src/Semana11/GestionInventarioAvanzado.py`: a dict-backed store
  with a case-folded name index and a JSON persisted file; persistence is
  invoked by the caller after each mutation.

Python strings are modelled as `List Char`; Python `dict` as an association
list (insertion ordered, first-key lookup, in-place value update — exactly
the observable behaviour of a CPython dict); Python `set` as `Finset`.
The Semana9-10 persisted file is modelled as the *physical* lines the
text-mode reader iterates: the writer emits the concatenated `a_linea`
strings as one stream, and reading decodes universal newlines and splits
after every `\n` (`lineasFisicas`), so names embedding newline characters
spread one logical line over several physical ones, as in the program.
Python `float` is modelled by exact rationals: Python guarantees that
`float(repr(x)) == x`, and the only properties the store relies on are that
the rendering is injective, parseable back, and free of the delimiter,
whitespace and newlines; the model realises them with an exact injective
rendering `ratToStr` and its parser `strToRat`.
-/

namespace Inv

/-- Decidable equality of `Except` results, used to evaluate the concrete
scenarios below. -/
instance {ε α : Type} [DecidableEq ε] [DecidableEq α] :
    DecidableEq (Except ε α) := fun x y =>
  match x, y with
  | .ok a, .ok b =>
    if h : a = b then .isTrue (by rw [h])
    else .isFalse (fun hc => h (Except.ok.inj hc))
  | .error a, .error b =>
    if h : a = b then .isTrue (by rw [h])
    else .isFalse (fun hc => h (Except.error.inj hc))
  | .ok _, .error _ => .isFalse (fun hc => Except.noConfusion hc)
  | .error _, .ok _ => .isFalse (fun hc => Except.noConfusion hc)

/-- Python `str` modelled as its list of characters. -/
abbrev Str := List Char

/-- The whitespace characters removed by Python `str.strip()`. -/
def isWs (c : Char) : Bool :=
  c = ' ' || c = '\t' || c = '\n' || c = '\r' || c = '\x0b' || c = '\x0c'

/-- Python `s.strip()`: drop whitespace from both ends. -/
def pstrip (s : Str) : Str :=
  ((s.dropWhile isWs).reverse.dropWhile isWs).reverse

/-- Python `s.lower()` (ASCII fragment, which is all the repo uses). -/
def lowerStr (s : Str) : Str := s.map Char.toLower

/-- Python `s.rstrip("\n")`: drop trailing newline characters. -/
def rstripNl (s : Str) : Str :=
  (s.reverse.dropWhile (· = '\n')).reverse

/-- Python `s.split(c)` for a one-character separator: splits at every
occurrence, keeping empty fields. -/
def pySplit (c : Char) : Str → List Str
  | [] => [[]]
  | ch :: rest =>
    match pySplit c rest with
    | [] => [[]]
    | s :: ss => if ch = c then [] :: s :: ss else (ch :: s) :: ss

/-- Python `pat in s` on strings, as a Boolean predicate: `pat` occurs as a
contiguous substring of `s`.  The empty pattern matches everything, exactly
as in Python. -/
def startsB (pat s : Str) : Bool :=
  match pat, s with
  | [], _ => true
  | _ :: _, [] => false
  | a :: as', b :: bs => a = b && startsB as' bs

def containsB (pat : Str) : Str → Bool
  | [] => decide (pat = [])
  | b :: bs => startsB pat (b :: bs) || containsB pat bs

theorem pySplit_ne_nil (c : Char) (s : Str) : pySplit c s ≠ [] := by
  cases s with
  | nil => simp [pySplit]
  | cons ch rest =>
    simp only [pySplit]
    cases h : pySplit c rest with
    | nil => simp
    | cons x xs =>
      split
      · simp
      · split <;> simp

/-- If the separator occurs nowhere in `s`, splitting yields the single
field `s`. -/
theorem pySplit_no_sep (c : Char) (s : Str) (h : c ∉ s) : pySplit c s = [s] := by
  induction s with
  | nil => rfl
  | cons a rest ih =>
    have ha : a ≠ c := fun hac => h (hac ▸ List.mem_cons_self a rest)
    have hr : c ∉ rest := fun hm => h (List.mem_cons_of_mem a hm)
    simp only [pySplit, ih hr]
    simp [ha]

/-- Splitting a string of the form `seg ++ c :: s` where `seg` is free of the
separator peels off `seg` as the first field. -/
theorem pySplit_append_cons (c : Char) (seg s : Str) (h : c ∉ seg) :
    pySplit c (seg ++ c :: s) = seg :: pySplit c s := by
  induction seg with
  | nil =>
    simp only [List.nil_append, pySplit]
    cases hs : pySplit c s with
    | nil => exact absurd hs (pySplit_ne_nil c s)
    | cons x xs => simp
  | cons a seg' ih =>
    have ha : a ≠ c := fun hac => h (hac ▸ List.mem_cons_self a seg')
    have hseg : c ∉ seg' := fun hm => h (List.mem_cons_of_mem a hm)
    simp only [List.cons_append, pySplit, List.append_eq]
    rw [ih hseg]
    simp [ha]

/-! ### Decimal rendering and parsing of numbers

Python renders `int`s with `str()` (decimal digits, `-` sign) and parses
them back with `int()`; `float`s are rendered with `repr` and parsed with
`float()`, a round-trip Python guarantees to be exact.  The model uses a
digit-by-digit decimal rendering for naturals, a sign-prefixed one for
integers, and a `num/den` rendering for the rationals standing in for
floats; the parsers invert them exactly, and reject anything that is not in
the image (modelling `int()` / `float()` raising `ValueError`). -/

/-- Numeric value of a decimal digit character. -/
def digitVal (c : Char) : Nat := c.toNat - '0'.toNat

/-- Decimal rendering of a natural number, digit by digit (structural on a
fuel bound so that it evaluates inside the kernel). -/
def natToStrF : Nat → Nat → Str
  | 0, _ => []
  | fuel + 1, n =>
    if n < 10 then [Nat.digitChar n]
    else natToStrF fuel (n / 10) ++ [Nat.digitChar (n % 10)]

/-- Decimal rendering of a natural number (Python `str(n)` for `n ≥ 0`). -/
def natToStr (n : Nat) : Str := natToStrF (n + 1) n

theorem natToStrF_congr (f1 : Nat) : ∀ f2 n, n < f1 → n < f2 →
    natToStrF f1 n = natToStrF f2 n := by
  induction f1 with
  | zero =>
    intro f2 n h1 _
    omega
  | succ f1' ih =>
    intro f2 n h1 h2
    cases f2 with
    | zero => omega
    | succ f2' =>
      simp only [natToStrF]
      by_cases h10 : n < 10
      · simp [h10]
      · simp only [h10, if_false]
        rw [ih f2' (n / 10) (by omega) (by omega)]

/-- The recurrence `natToStr` satisfies. -/
theorem natToStr_eq (n : Nat) :
    natToStr n = if n < 10 then [Nat.digitChar n]
      else natToStr (n / 10) ++ [Nat.digitChar (n % 10)] := by
  show natToStrF (n + 1) n = _
  simp only [natToStrF]
  by_cases h10 : n < 10
  · simp [h10]
  · simp only [h10, if_false]
    rw [natToStrF_congr n (n / 10 + 1) (n / 10) (by omega) (by omega)]
    rfl

/-- Parse a nonempty all-digit string as a natural number; `none` otherwise
(Python `int()` raising `ValueError`). -/
def strToNat (s : Str) : Option Nat :=
  if s ≠ [] ∧ s.all Char.isDigit then
    some (s.foldl (fun a c => a * 10 + digitVal c) 0)
  else none

theorem digitChar_isDigit (d : Nat) (h : d < 10) : (Nat.digitChar d).isDigit = true := by
  interval_cases d <;> decide

theorem digitVal_digitChar (d : Nat) (h : d < 10) : digitVal (Nat.digitChar d) = d := by
  interval_cases d <;> decide

theorem natToStr_ne_nil (n : Nat) : natToStr n ≠ [] := by
  rw [natToStr_eq]
  split <;> simp

theorem natToStr_digits (n : Nat) : ∀ c ∈ natToStr n, c.isDigit = true := by
  induction n using Nat.strong_induction_on with
  | _ n ih =>
    rw [natToStr_eq]
    split
    · intro c hc
      simp only [List.mem_singleton] at hc
      exact hc ▸ digitChar_isDigit n (by assumption)
    · intro c hc
      rcases List.mem_append.mp hc with h1 | h2
      · exact ih (n / 10) (Nat.div_lt_self (by omega) (by omega)) c h1
      · simp only [List.mem_singleton] at h2
        exact h2 ▸ digitChar_isDigit (n % 10) (Nat.mod_lt n (by omega))

theorem natToStr_foldl (n : Nat) :
    ∀ a : Nat, (natToStr n).foldl (fun a c => a * 10 + digitVal c) a
      = a * 10 ^ (natToStr n).length + n := by
  induction n using Nat.strong_induction_on with
  | _ n ih =>
    intro a
    rw [natToStr_eq]
    split
    · simp [List.foldl, digitVal_digitChar n (by assumption)]
    · rw [List.foldl_append, List.length_append,
        ih (n / 10) (Nat.div_lt_self (by omega) (by omega))]
      simp only [List.foldl, List.length_cons, List.length_nil, Nat.zero_add]
      rw [digitVal_digitChar (n % 10) (Nat.mod_lt n (by omega))]
      rw [pow_succ, ← mul_assoc]
      generalize a * 10 ^ (natToStr (n / 10)).length = t
      omega

theorem strToNat_natToStr (n : Nat) : strToNat (natToStr n) = some n := by
  unfold strToNat
  rw [if_pos ⟨natToStr_ne_nil n, List.all_eq_true.mpr (natToStr_digits n)⟩]
  rw [natToStr_foldl n 0]
  simp

/-- Decimal rendering of a Python `int` (`str(n)`). -/
def intToStr (n : Int) : Str :=
  if n < 0 then '-' :: natToStr n.natAbs else natToStr n.toNat

/-- Parse an optionally `-`-signed digit string as an integer (`int()`). -/
def strToInt (s : Str) : Option Int :=
  match s with
  | [] => none
  | c :: rest =>
    if c = '-' then (strToNat rest).map (fun m => -(m : Int))
    else (strToNat (c :: rest)).map (fun m => (m : Int))

theorem strToInt_of_digits (s : Str) (hd : ∀ c ∈ s, c.isDigit = true) :
    strToInt s = (strToNat s).map (fun m => (m : Int)) := by
  cases s with
  | nil => simp [strToInt, strToNat]
  | cons a rest =>
    have ha : a.isDigit = true := hd a (List.mem_cons_self a rest)
    have hne : a ≠ '-' := by
      intro h
      rw [h] at ha
      simp at ha
    simp [strToInt, hne]

theorem strToInt_intToStr (n : Int) : strToInt (intToStr n) = some n := by
  unfold intToStr
  split
  · rename_i hneg
    show strToInt ('-' :: natToStr n.natAbs) = some n
    simp [strToInt, strToNat_natToStr, abs_of_neg hneg]
  · rename_i hpos
    rw [strToInt_of_digits _ (natToStr_digits _), strToNat_natToStr]
    have h2 : ((n.toNat : Nat) : Int) = n := by omega
    simp [h2]

/-- Rendering of the rational standing in for a Python float (see the file
header: the store only relies on the rendering being injective, parseable
and free of delimiter/whitespace/newline characters). -/
def ratToStr (q : ℚ) : Str := intToStr q.num ++ '/' :: natToStr q.den

/-- Parse the rendering above; also accepts a plain integer, as Python
`float()` does.  Anything else is rejected (`ValueError`). -/
def strToRat (s : Str) : Option ℚ :=
  match pySplit '/' s with
  | [a, b] =>
    match strToInt a, strToNat b with
    | some n, some d => if d ≠ 0 then some (mkRat n d) else none
    | _, _ => none
  | [a] => (strToInt a).map (fun n => (n : ℚ))
  | _ => none

theorem intToStr_chars (n : Int) : ∀ c ∈ intToStr n, c.isDigit = true ∨ c = '-' := by
  unfold intToStr
  split
  · intro c hc
    rcases List.mem_cons.mp hc with h | h
    · exact Or.inr h
    · exact Or.inl (natToStr_digits _ c h)
  · intro c hc
    exact Or.inl (natToStr_digits _ c hc)

theorem slash_not_mem_intToStr (n : Int) : '/' ∉ intToStr n := by
  intro h
  rcases intToStr_chars n '/' h with h' | h' <;> simp at h'

theorem slash_not_mem_natToStr (m : Nat) : '/' ∉ natToStr m := by
  intro h
  have := natToStr_digits m '/' h
  simp at this

theorem strToRat_ratToStr (q : ℚ) : strToRat (ratToStr q) = some q := by
  unfold strToRat ratToStr
  rw [pySplit_append_cons '/' _ _ (slash_not_mem_intToStr q.num),
    pySplit_no_sep '/' _ (slash_not_mem_natToStr q.den)]
  simp only [strToInt_intToStr, strToNat_natToStr]
  rw [if_pos q.den_nz]
  rw [Rat.mkRat_self]

/-! ### Character-class facts used by the line codec -/

theorem dropWhile_eq_self_of (p : Char → Bool) (l : Str) (h : ∀ c ∈ l, p c = false) :
    l.dropWhile p = l := by
  cases l with
  | nil => rfl
  | cons a rest => simp [List.dropWhile, h a (List.mem_cons_self a rest)]

theorem pstrip_eq_self_of_no_ws (s : Str) (h : ∀ c ∈ s, isWs c = false) : pstrip s = s := by
  unfold pstrip
  rw [dropWhile_eq_self_of _ _ h,
    dropWhile_eq_self_of _ _ (fun c hc => h c (List.mem_reverse.mp hc)),
    List.reverse_reverse]

theorem not_ws_of_isDigit (c : Char) (h : c.isDigit = true) : isWs c = false := by
  have h1 : c ≠ ' ' := by intro he; subst he; simp [Char.isDigit] at h
  have h2 : c ≠ '\t' := by intro he; subst he; simp [Char.isDigit] at h
  have h3 : c ≠ '\n' := by intro he; subst he; simp [Char.isDigit] at h
  have h4 : c ≠ '\r' := by intro he; subst he; simp [Char.isDigit] at h
  have h5 : c ≠ '\x0b' := by intro he; subst he; simp [Char.isDigit] at h
  have h6 : c ≠ '\x0c' := by intro he; subst he; simp [Char.isDigit] at h
  simp [isWs, h1, h2, h3, h4, h5, h6]

theorem ne_pipe_of_isDigit (c : Char) (h : c.isDigit = true) : c ≠ '|' := by
  intro he; subst he; simp [Char.isDigit] at h

theorem ne_nl_of_isDigit (c : Char) (h : c.isDigit = true) : c ≠ '\n' := by
  intro he; subst he; simp [Char.isDigit] at h

theorem intToStr_no_ws (n : Int) : ∀ c ∈ intToStr n, isWs c = false := by
  intro c hc
  rcases intToStr_chars n c hc with h | h
  · exact not_ws_of_isDigit c h
  · subst h; decide

theorem intToStr_no_pipe (n : Int) : '|' ∉ intToStr n := by
  intro hc
  rcases intToStr_chars n '|' hc with h | h
  · exact ne_pipe_of_isDigit '|' h rfl
  · simp at h

theorem ratToStr_chars (q : ℚ) :
    ∀ c ∈ ratToStr q, c.isDigit = true ∨ c = '-' ∨ c = '/' := by
  intro c hc
  rcases List.mem_append.mp hc with h | h
  · rcases intToStr_chars q.num c h with h' | h'
    · exact Or.inl h'
    · exact Or.inr (Or.inl h')
  · rcases List.mem_cons.mp h with h' | h'
    · exact Or.inr (Or.inr h')
    · exact Or.inl (natToStr_digits _ c h')

theorem ratToStr_no_ws (q : ℚ) : ∀ c ∈ ratToStr q, isWs c = false := by
  intro c hc
  rcases ratToStr_chars q c hc with h | h | h
  · exact not_ws_of_isDigit c h
  · subst h; decide
  · subst h; decide

theorem ratToStr_no_pipe (q : ℚ) : '|' ∉ ratToStr q := by
  intro hc
  rcases ratToStr_chars q '|' hc with h | h | h
  · exact ne_pipe_of_isDigit '|' h rfl
  · simp at h
  · simp at h

/-! ### The record type (`Producto`)

Both files share the same four fields.  `src/Semana9-10/GestionInventario.py`
validates through property setters run in order by `__init__`
(id, nombre, cantidad, precio); `src/Semana11/GestionInventarioAvanzado.py`
validates in `__post_init__` in the same field order.  The only behavioural
difference is the id bound: Semana9-10 rejects `id < 0`, Semana11 rejects
`id <= 0`.  The `isinstance`/`float()` type checks of the Python code cannot
fail in this typed embedding and are noted here rather than modelled. -/

structure Producto where
  id : Int
  nombre : Str
  cantidad : Int
  precio : ℚ
deriving DecidableEq, Repr, Inhabited

/-- Validation failures (`ValueError` in Semana9-10, `ValorInvalido` in
Semana11), one constructor per message. -/
inductive ValErr
  | idInvalido
  | nombreVacio
  | cantidadNegativa
  | precioNegativo
deriving DecidableEq, Repr

/-- Record construction of `src/Semana9-10/GestionInventario.py`
(`Producto.__init__` running the four validating setters in order).
Note the id check is `value < 0`. -/
def Producto.mkS910 (id : Int) (nombre : Str) (cantidad : Int) (precio : ℚ) :
    Except ValErr Producto :=
  if id < 0 then .error .idInvalido
  else if pstrip nombre = [] then .error .nombreVacio
  else if cantidad < 0 then .error .cantidadNegativa
  else if precio < 0 then .error .precioNegativo
  else .ok ⟨id, pstrip nombre, cantidad, precio⟩

/-- Record construction of `src/Semana11/GestionInventarioAvanzado.py`
(`Producto.__post_init__`).  Note the id check is `self.id <= 0`. -/
def Producto.mkS11 (id : Int) (nombre : Str) (cantidad : Int) (precio : ℚ) :
    Except ValErr Producto :=
  if id ≤ 0 then .error .idInvalido
  else if pstrip nombre = [] then .error .nombreVacio
  else if cantidad < 0 then .error .cantidadNegativa
  else if precio < 0 then .error .precioNegativo
  else .ok ⟨id, pstrip nombre, cantidad, precio⟩

/-- The fields every record produced by the Semana9-10 constructor has. -/
def ValidS910 (p : Producto) : Prop :=
  0 ≤ p.id ∧ pstrip p.nombre = p.nombre ∧ p.nombre ≠ [] ∧
    0 ≤ p.cantidad ∧ 0 ≤ p.precio

/-- The fields every record produced by the Semana11 constructor has. -/
def ValidS11 (p : Producto) : Prop :=
  0 < p.id ∧ pstrip p.nombre = p.nombre ∧ p.nombre ≠ [] ∧
    0 ≤ p.cantidad ∧ 0 ≤ p.precio

instance (p : Producto) : Decidable (ValidS910 p) := by
  unfold ValidS910; infer_instance

instance (p : Producto) : Decidable (ValidS11 p) := by
  unfold ValidS11; infer_instance

/-! ### Line codec of Semana9-10 (`Producto.a_linea` / `Producto.desde_linea`) -/

/-- Model of `Producto.a_linea`: `f"{id}|{nombre}|{cantidad}|{precio}\n"`. -/
def aLinea (p : Producto) : Str :=
  intToStr p.id ++ '|' :: (p.nombre ++ '|' :: (intToStr p.cantidad ++ '|' ::
    (ratToStr p.precio ++ ['\n'])))

/-- Decode failures of `Producto.desde_linea`: wrong column count, a
non-numeric numeric field, or the constructor's own validation. -/
inductive ParseErr
  | columnas
  | numero
  | valid (e : ValErr)
deriving DecidableEq, Repr

/-- Model of `Producto.desde_linea`: strip the trailing newline, split on `|`, strip
each part, require exactly 4 columns, parse the numeric fields, then run
the validating constructor. -/
def desdeLinea (linea : Str) : Except ParseErr Producto :=
  match (pySplit '|' (rstripNl linea)).map pstrip with
  | [idS, nombreS, cantS, precioS] =>
    match strToInt idS, strToInt cantS, strToRat precioS with
    | some id, some cant, some precio =>
      match Producto.mkS910 id nombreS cant precio with
      | .ok p => .ok p
      | .error e => .error (.valid e)
    | _, _, _ => .error .numero
  | _ => .error .columnas

theorem rstripNl_append_nl (s : Str) (h : ∀ c, s.getLast? = some c → c ≠ '\n') :
    rstripNl (s ++ ['\n']) = s := by
  unfold rstripNl
  rw [List.reverse_append]
  show (List.dropWhile _ ('\n' :: s.reverse)).reverse = s
  rw [List.dropWhile_cons]
  simp only [decide_True, if_true]
  cases hs : s.reverse with
  | nil =>
    have : s = [] := by simpa using congrArg List.reverse hs
    simp [this]
  | cons a rest =>
    have ha : s.getLast? = some a := by
      rw [← List.head?_reverse, hs]
      rfl
    have hanl : a ≠ '\n' := h a ha
    rw [List.dropWhile_cons]
    have hs' : s = rest.reverse ++ [a] := by
      have h2 := congrArg List.reverse hs
      simpa using h2
    simp [hanl, ← hs']

/-- Decode-of-encode for the Semana9-10 line codec, on any validated record
whose name is free of the field delimiter. -/
theorem desdeLinea_aLinea (p : Producto) (hv : ValidS910 p) (hpipe : '|' ∉ p.nombre) :
    desdeLinea (aLinea p) = .ok p := by
  obtain ⟨hid, hstrip, hne, hcant, hprec⟩ := hv
  have hNnil : natToStr p.precio.den ≠ [] := natToStr_ne_nil _
  have hRnil : ratToStr p.precio ≠ [] := by
    unfold ratToStr
    simp
  have hline : aLinea p =
      (intToStr p.id ++ '|' :: (p.nombre ++ '|' :: (intToStr p.cantidad ++ '|' ::
        ratToStr p.precio))) ++ ['\n'] := by
    simp [aLinea, List.append_assoc]
  have hglR : (ratToStr p.precio).getLast? = some ((natToStr p.precio.den).getLast hNnil) := by
    have hr : ratToStr p.precio
        = (intToStr p.precio.num ++ ['/']) ++ natToStr p.precio.den := by
      simp [ratToStr, List.append_assoc]
    rw [hr, List.getLast?_append_of_ne_nil _ hNnil,
      List.getLast?_eq_getLast_of_ne_nil hNnil]
  have hCg : (intToStr p.id ++ '|' :: (p.nombre ++ '|' :: (intToStr p.cantidad ++ '|' ::
      ratToStr p.precio))).getLast? = (ratToStr p.precio).getLast? := by
    rw [List.getLast?_append_cons]
    rw [show ('|' :: (p.nombre ++ '|' :: (intToStr p.cantidad ++ '|' :: ratToStr p.precio)))
        = ('|' :: p.nombre) ++ '|' :: (intToStr p.cantidad ++ '|' :: ratToStr p.precio) by simp]
    rw [List.getLast?_append_cons]
    rw [show ('|' :: (intToStr p.cantidad ++ '|' :: ratToStr p.precio))
        = ('|' :: intToStr p.cantidad) ++ '|' :: ratToStr p.precio by simp]
    rw [List.getLast?_append_cons]
    rw [show ('|' :: ratToStr p.precio) = ['|'] ++ ratToStr p.precio from rfl]
    rw [List.getLast?_append_of_ne_nil _ hRnil]
  have hlast : ∀ c, (intToStr p.id ++ '|' :: (p.nombre ++ '|' :: (intToStr p.cantidad ++ '|' ::
      ratToStr p.precio))).getLast? = some c → c ≠ '\n' := by
    intro c hc
    rw [hCg, hglR] at hc
    have hcd : c = (natToStr p.precio.den).getLast hNnil := (Option.some.inj hc).symm
    subst hcd
    exact ne_nl_of_isDigit _ (natToStr_digits _ _ (List.getLast_mem hNnil))
  have hparts : (pySplit '|' (rstripNl (aLinea p))).map pstrip
      = [intToStr p.id, p.nombre, intToStr p.cantidad, ratToStr p.precio] := by
    rw [hline, rstripNl_append_nl _ hlast,
      pySplit_append_cons '|' _ _ (intToStr_no_pipe p.id),
      pySplit_append_cons '|' _ _ hpipe,
      pySplit_append_cons '|' _ _ (intToStr_no_pipe p.cantidad),
      pySplit_no_sep '|' _ (ratToStr_no_pipe p.precio)]
    simp only [List.map_cons, List.map_nil]
    rw [pstrip_eq_self_of_no_ws _ (intToStr_no_ws p.id),
      pstrip_eq_self_of_no_ws _ (intToStr_no_ws p.cantidad),
      pstrip_eq_self_of_no_ws _ (ratToStr_no_ws p.precio), hstrip]
  have hmk : Producto.mkS910 p.id p.nombre p.cantidad p.precio = .ok p := by
    have h2 : ¬(pstrip p.nombre = []) := by
      rw [hstrip]
      exact hne
    unfold Producto.mkS910
    rw [if_neg (by omega), if_neg h2, if_neg (by omega),
      if_neg (by exact not_lt.mpr hprec), hstrip]
  unfold desdeLinea
  rw [hparts]
  simp only [strToInt_intToStr, strToRat_ratToStr, hmk]

/-! ### Physical lines of the Semana9-10 persisted file

`_guardar_atomico` writes the concatenation of the `a_linea` strings as one
character stream; `_cargar_desde_archivo` iterates the file in text mode,
which decodes with universal newlines (`\r\n` and lone `\r` become `\n`)
and yields the stream split after every `\n`, each physical line keeping
its terminator.  A record name containing `\n` or `\r` therefore spreads
one logical line over two physical lines on reload. -/

/-- Universal-newline decoding of a character stream: `\r\n` and lone `\r`
become `\n`.  `prev` is the previously read raw character (so that the `\n`
of a `\r\n` pair is dropped); the initial seed is any non-`\r` character. -/
def traduceNlAux (prev : Char) : Str → Str
  | [] => []
  | c :: rest =>
    if c = '\n' && prev = '\r' then traduceNlAux c rest
    else if c = '\r' then '\n' :: traduceNlAux c rest
    else c :: traduceNlAux c rest

def traduceNl (s : Str) : Str := traduceNlAux 'x' s

/-- Split a decoded stream after every `\n`, keeping the terminator — the
lines Python's file iteration yields (the last line may be
unterminated). -/
def cortaLineas : Str → List Str
  | [] => []
  | c :: rest =>
    if c = '\n' then ['\n'] :: cortaLineas rest
    else
      match cortaLineas rest with
      | [] => [[c]]
      | l :: ls => (c :: l) :: ls

/-- The physical lines a text-mode reader obtains from a raw stream. -/
def lineasFisicas (s : Str) : List Str := cortaLineas (traduceNl s)

/-- The physical lines of the file `_guardar_atomico` produces for a given
product list: the `a_linea` strings are written as one stream and re-split
by the reader. -/
def archivoDe (productos : List Producto) : List Str :=
  lineasFisicas ((productos.map aLinea).flatten)

theorem ne_cr_of_isDigit (c : Char) (h : c.isDigit = true) : c ≠ '\r' := by
  intro he
  subst he
  simp [Char.isDigit] at h

theorem intToStr_sin_saltos (n : Int) :
    ∀ c ∈ intToStr n, c ≠ '\n' ∧ c ≠ '\r' := by
  intro c hc
  rcases intToStr_chars n c hc with h | h
  · exact ⟨ne_nl_of_isDigit c h, ne_cr_of_isDigit c h⟩
  · subst h
    exact ⟨by decide, by decide⟩

theorem ratToStr_sin_saltos (q : ℚ) :
    ∀ c ∈ ratToStr q, c ≠ '\n' ∧ c ≠ '\r' := by
  intro c hc
  rcases ratToStr_chars q c hc with h | h | h
  · exact ⟨ne_nl_of_isDigit c h, ne_cr_of_isDigit c h⟩
  · subst h
    exact ⟨by decide, by decide⟩
  · subst h
    exact ⟨by decide, by decide⟩

/-- Restatement of the line shape: body, then the final newline. -/
theorem aLinea_eq_cuerpo (p : Producto) :
    aLinea p = (intToStr p.id ++ '|' :: (p.nombre ++ '|' :: (intToStr p.cantidad ++ '|' ::
      ratToStr p.precio))) ++ ['\n'] := by
  simp [aLinea, List.append_assoc]

theorem cuerpo_sin_saltos (p : Producto) (hn : '\n' ∉ p.nombre) (hr : '\r' ∉ p.nombre) :
    ∀ c ∈ (intToStr p.id ++ '|' :: (p.nombre ++ '|' :: (intToStr p.cantidad ++ '|' ::
      ratToStr p.precio))), c ≠ '\n' ∧ c ≠ '\r' := by
  intro c hc
  rcases List.mem_append.mp hc with h | h
  · exact intToStr_sin_saltos p.id c h
  rcases List.mem_cons.mp h with h | h
  · subst h
    exact ⟨by decide, by decide⟩
  rcases List.mem_append.mp h with h | h
  · exact ⟨fun he => hn (he ▸ h), fun he => hr (he ▸ h)⟩
  rcases List.mem_cons.mp h with h | h
  · subst h
    exact ⟨by decide, by decide⟩
  rcases List.mem_append.mp h with h | h
  · exact intToStr_sin_saltos p.cantidad c h
  rcases List.mem_cons.mp h with h | h
  · subst h
    exact ⟨by decide, by decide⟩
  · exact ratToStr_sin_saltos p.precio c h

/-- Universal-newline decoding leaves a newline-free body followed by `\n`
untouched and continues with `prev = '\n'`. -/
theorem traduceNlAux_linea (body : Str) (h : ∀ c ∈ body, c ≠ '\n' ∧ c ≠ '\r') :
    ∀ (prev : Char) (rest : Str), prev ≠ '\r' →
    traduceNlAux prev ((body ++ ['\n']) ++ rest)
      = (body ++ ['\n']) ++ traduceNlAux '\n' rest := by
  induction body with
  | nil =>
    intro prev rest hprev
    show traduceNlAux prev ('\n' :: rest) = '\n' :: traduceNlAux '\n' rest
    simp [traduceNlAux, hprev]
  | cons c body' ih =>
    intro prev rest _
    obtain ⟨hcn, hcr⟩ := h c (List.mem_cons_self c body')
    show traduceNlAux prev (c :: ((body' ++ ['\n']) ++ rest)) = _
    simp only [traduceNlAux, hcn, hcr, Bool.and_eq_true, decide_eq_true_eq,
      false_and, if_false, if_neg hcn, if_neg hcr]
    rw [ih (fun d hd => h d (List.mem_cons_of_mem c hd)) c rest hcr]
    rfl

/-- Splitting peels a newline-free body with its terminator off as one
physical line. -/
theorem cortaLineas_linea (body : Str) (h : ∀ c ∈ body, c ≠ '\n') (rest : Str) :
    cortaLineas ((body ++ ['\n']) ++ rest) = (body ++ ['\n']) :: cortaLineas rest := by
  induction body with
  | nil =>
    show cortaLineas ('\n' :: rest) = ['\n'] :: cortaLineas rest
    simp [cortaLineas]
  | cons c body' ih =>
    have hcn := h c (List.mem_cons_self c body')
    show cortaLineas (c :: ((body' ++ ['\n']) ++ rest)) = _
    simp only [cortaLineas, if_neg hcn]
    rw [ih (fun d hd => h d (List.mem_cons_of_mem c hd))]
    rfl

theorem traduceNlAux_flatten (productos : List Producto)
    (h : ∀ p ∈ productos, '\n' ∉ p.nombre ∧ '\r' ∉ p.nombre) :
    ∀ prev, prev ≠ '\r' →
    traduceNlAux prev ((productos.map aLinea).flatten)
      = (productos.map aLinea).flatten := by
  induction productos with
  | nil =>
    intro prev _
    rfl
  | cons p rest ih =>
    intro prev hprev
    obtain ⟨hn, hr⟩ := h p (List.mem_cons_self p rest)
    simp only [List.map_cons, List.flatten_cons]
    rw [aLinea_eq_cuerpo p]
    rw [List.append_assoc]
    rw [← List.append_assoc _ ['\n']]
    rw [traduceNlAux_linea _ (cuerpo_sin_saltos p hn hr) prev _ hprev]
    rw [ih (fun q hq => h q (List.mem_cons_of_mem p hq)) '\n' (by decide)]

theorem cortaLineas_flatten (productos : List Producto)
    (h : ∀ p ∈ productos, '\n' ∉ p.nombre ∧ '\r' ∉ p.nombre) :
    cortaLineas ((productos.map aLinea).flatten) = productos.map aLinea := by
  induction productos with
  | nil => rfl
  | cons p rest ih =>
    obtain ⟨hn, hr⟩ := h p (List.mem_cons_self p rest)
    simp only [List.map_cons, List.flatten_cons]
    rw [aLinea_eq_cuerpo p]
    rw [List.append_assoc]
    rw [← List.append_assoc _ ['\n']]
    rw [cortaLineas_linea _ (fun c hc => (cuerpo_sin_saltos p hn hr c hc).1) _]
    rw [ih (fun q hq => h q (List.mem_cons_of_mem p hq))]

/-- When no record name contains a newline character, the reader's physical
lines are exactly the written logical lines. -/
theorem archivoDe_limpio (productos : List Producto)
    (h : ∀ p ∈ productos, '\n' ∉ p.nombre ∧ '\r' ∉ p.nombre) :
    archivoDe productos = productos.map aLinea := by
  unfold archivoDe lineasFisicas traduceNl
  rw [traduceNlAux_flatten productos h 'x' (by decide)]
  exact cortaLineas_flatten productos h

/-! ### Dict codec of Semana11 (`Producto.to_dict` / `Producto.from_dict`) -/

/-- One serialized JSON entry `{"id":…, "nombre":…, "cantidad":…, "precio":…}`
as produced by `asdict` and consumed by `from_dict`.  The values are typed;
the `int()` / `str()` / `float()` coercions of `from_dict` are identities on
them. -/
structure RecordDict where
  id : Int
  nombre : Str
  cantidad : Int
  precio : ℚ
deriving DecidableEq, Repr

/-- Model of `Producto.to_dict` (Semana11). -/
def Producto.toDict (p : Producto) : RecordDict :=
  ⟨p.id, p.nombre, p.cantidad, p.precio⟩

/-- Model of `Producto.from_dict` (Semana11): rebuild through the validating
constructor. -/
def Producto.fromDict (d : RecordDict) : Except ValErr Producto :=
  Producto.mkS11 d.id d.nombre d.cantidad d.precio

theorem mkS11_of_valid (p : Producto) (hv : ValidS11 p) :
    Producto.mkS11 p.id p.nombre p.cantidad p.precio = .ok p := by
  obtain ⟨hid, hstrip, hne, hcant, hprec⟩ := hv
  have h2 : ¬(pstrip p.nombre = []) := by
    rw [hstrip]
    exact hne
  unfold Producto.mkS11
  rw [if_neg (by omega), if_neg h2, if_neg (by omega),
    if_neg (by exact not_lt.mpr hprec), hstrip]

theorem fromDict_toDict (p : Producto) (hv : ValidS11 p) :
    Producto.fromDict (Producto.toDict p) = .ok p :=
  mkS11_of_valid p hv

/-! ### The Semana9-10 store (`Inventario` of `GestionInventario.py`)

State: the product list and the lines of the persisted file
(`inventario.txt`).  Persistence failure (PermissionError / OSError raised
by `_guardar_atomico`) is modelled by the Boolean `fallo` parameter: the
filesystem either completes the atomic write or fails before the
`os.replace`, leaving the target file untouched. -/

/-- The Semana9-10 store state: the product list, and the *physical* lines
of `inventario.txt` — the units the text-mode reader of
`_cargar_desde_archivo` iterates. -/
structure S910 where
  productos : List Producto
  archivo : List Str
deriving DecidableEq, Repr

def S910.empty : S910 := ⟨[], []⟩

/-- Errors a mutating operation can surface: a persistence failure
propagated by `_guardar_atomico`, or a `TypeError`/`ValueError` from a
validating setter inside `actualizar_por_id`. -/
inductive OpErr
  | persistencia
  | invalido
deriving DecidableEq, Repr

/-- Model of `Inventario._guardar_atomico`: on success the target file holds the
written stream — the concatenated line encodings of the whole product list
(whole-file rewrite) — recorded as the physical lines a reader obtains from
it (`archivoDe`). -/
def guardarAtomico (fallo : Bool) (productos : List Producto) :
    Except OpErr (List Str) :=
  if fallo then .error .persistencia else .ok (archivoDe productos)

/-- Model of `Inventario.anadir_producto`: duplicate id returns `False` untouched;
otherwise append, then persist; if persisting raises, `pop()` the appended
record and re-raise. -/
def anadirProducto (fallo : Bool) (p : Producto) (s : S910) :
    Except OpErr Bool × S910 :=
  if s.productos.any (fun q => q.id == p.id) then (.ok false, s)
  else
    match guardarAtomico fallo (s.productos ++ [p]) with
    | .ok f => (.ok true, ⟨s.productos ++ [p], f⟩)
    | .error e => (.error e, ⟨(s.productos ++ [p]).dropLast, s.archivo⟩)

/-- The scan of the Python `for i, p in enumerate(...)` loops: the first
element with the given id, split as (prefix, element, suffix); `none` when
absent.  `del productos[i]` yields `prefix ++ suffix` and
`productos.insert(i, backup)` restores `prefix ++ backup :: suffix`. -/
def removeFirstSplit (id : Int) : List Producto →
    Option (List Producto × Producto × List Producto)
  | [] => none
  | q :: rest =>
    if q.id = id then some ([], q, rest)
    else (removeFirstSplit id rest).map (fun x => (q :: x.1, x.2.1, x.2.2))

/-- Model of `Inventario.eliminar_por_id`. -/
def eliminarPorId (fallo : Bool) (id : Int) (s : S910) :
    Except OpErr Bool × S910 :=
  match removeFirstSplit id s.productos with
  | none => (.ok false, s)
  | some (a, p, b) =>
    match guardarAtomico fallo (a ++ b) with
    | .ok f => (.ok true, ⟨a ++ b, f⟩)
    | .error e => (.error e, ⟨a ++ p :: b, s.archivo⟩)

/-- The `cantidad` setter of `Producto` (Semana9-10). -/
def setCantidad (p : Producto) (c : Int) : Except ValErr Producto :=
  if c < 0 then .error .cantidadNegativa else .ok { p with cantidad := c }

/-- The `precio` setter of `Producto` (Semana9-10). -/
def setPrecio (p : Producto) (pr : ℚ) : Except ValErr Producto :=
  if pr < 0 then .error .precioNegativo else .ok { p with precio := pr }

/-- The body of `actualizar_por_id`'s `try` block: apply the requested
setters in order (cantidad first, then precio), stopping at the first
validation failure. -/
def actualizarCampos (p : Producto) (cant : Option Int) (prec : Option ℚ) :
    Except ValErr Producto := do
  let p1 ← match cant with
    | none => pure p
    | some c => setCantidad p c
  match prec with
  | none => pure p1
  | some pr => setPrecio p1 pr

/-- Model of `Inventario.actualizar_por_id`: on any exception (validation or
persistence) the slot is restored to `prev`, a field-equal copy of the
record before mutation. -/
def actualizarPorId (fallo : Bool) (id : Int) (cant : Option Int)
    (prec : Option ℚ) (s : S910) : Except OpErr Bool × S910 :=
  match removeFirstSplit id s.productos with
  | none => (.ok false, s)
  | some (a, p, b) =>
    match actualizarCampos p cant prec with
    | .error _ => (.error .invalido, ⟨a ++ p :: b, s.archivo⟩)
    | .ok p' =>
      match guardarAtomico fallo (a ++ p' :: b) with
      | .ok f => (.ok true, ⟨a ++ p' :: b, f⟩)
      | .error e => (.error e, ⟨a ++ p :: b, s.archivo⟩)

/-- Model of `Inventario.buscar_por_nombre` (Semana9-10): trim and lower the term,
then keep the products whose lowered name contains it — with no
empty-pattern short-circuit. -/
def buscarPorNombre (termino : Str) (s : S910) : List Producto :=
  s.productos.filter (fun p => containsB (lowerStr (pstrip termino)) (lowerStr p.nombre))

/-- Model of `Inventario.mostrar_todos`. -/
def mostrarTodos (s : S910) : List Producto := s.productos

/-- A `removeFirstSplit` hit decomposes the list at the first matching id. -/
theorem removeFirstSplit_eq (id : Int) (l : List Producto)
    (a : List Producto) (p : Producto) (b : List Producto)
    (h : removeFirstSplit id l = some (a, p, b)) :
    l = a ++ p :: b ∧ p.id = id := by
  induction l generalizing a p b with
  | nil => simp [removeFirstSplit] at h
  | cons q rest ih =>
    unfold removeFirstSplit at h
    by_cases hq : q.id = id
    · rw [if_pos hq] at h
      obtain ⟨rfl, rfl, rfl⟩ : ([] : List Producto) = a ∧ q = p ∧ rest = b := by
        simpa using h
      simpa using hq
    · rw [if_neg hq] at h
      cases hr : removeFirstSplit id rest with
      | none => rw [hr] at h; simp at h
      | some x =>
        rw [hr] at h
        obtain ⟨x1, x2, x3⟩ := x
        simp only [Option.map_some'] at h
        have h' := Option.some.inj h
        simp only [Prod.mk.injEq] at h'
        obtain ⟨ha, hp, hb⟩ := h'
        obtain ⟨hrest, hid⟩ := ih x1 x2 x3 hr
        constructor
        · rw [← ha, ← hp, ← hb, List.cons_append, ← hrest]
        · rw [← hp]
          exact hid

/-! ### Loading in Semana9-10 (`_cargar_desde_archivo` / `_reemplazar_o_agregar`) -/

/-- Model of `Inventario._reemplazar_o_agregar`: replace the first record with the
same id in place, else append. -/
def reemplazarOAgregar (p : Producto) : List Producto → List Producto
  | [] => [p]
  | q :: rest => if q.id = p.id then p :: rest else q :: reemplazarOAgregar p rest

/-- One iteration of the `_cargar_desde_archivo` loop: skip blank lines,
decode, replace-or-add on success, print (here: count) a diagnostic on
failure. -/
def cargarLinea (acc : List Producto × Nat) (linea : Str) : List Producto × Nat :=
  if pstrip linea = [] then acc
  else
    match desdeLinea linea with
    | .ok p => (reemplazarOAgregar p acc.1, acc.2)
    | .error _ => (acc.1, acc.2 + 1)

/-- Model of `Inventario._cargar_desde_archivo`: fold the file's lines into the
*current* product list (it merges via `_reemplazar_o_agregar` rather than
clearing; the constructor happens to call it with an empty list).  Returns
the new state and the number of corrupt-line diagnostics. -/
def cargarDesdeArchivo (s : S910) : S910 × Nat :=
  ((fun r => (⟨r.1, s.archivo⟩, r.2)) (s.archivo.foldl cargarLinea (s.productos, 0)))

/-- First-match lookup by id, the way the Python code scans its list. -/
def findById (id : Int) (l : List Producto) : Option Producto :=
  l.find? (fun p => p.id == id)

/-- The sub-sequence of lines that are non-blank and decodable, in file
order, as records. -/
def lineasDecodificadas (lineas : List Str) : List Producto :=
  lineas.filterMap (fun linea =>
    if pstrip linea = [] then none else (desdeLinea linea).toOption)

/-- Returns `a` if it is `some`, else `b` (first-biased choice on options). -/
def orO (a b : Option Producto) : Option Producto :=
  match a with
  | some x => some x
  | none => b

theorem orO_none (b : Option Producto) : orO none b = b := rfl

theorem orO_orO_some (a : Option Producto) (x : Producto) (b : Option Producto) :
    orO (orO a (some x)) b = orO a (some x) := by
  cases a <;> rfl

theorem getLast?_cons_orO (x : Producto) (xs : List Producto) :
    (x :: xs).getLast? = orO xs.getLast? (some x) := by
  cases xs with
  | nil => rfl
  | cons y ys =>
    rw [List.getLast?_cons_cons,
      List.getLast?_eq_getLast_of_ne_nil (List.cons_ne_nil y ys)]
    rfl

theorem findById_reemplazarOAgregar (p : Producto) (l : List Producto) (i : Int) :
    findById i (reemplazarOAgregar p l)
      = if p.id = i then some p else findById i l := by
  induction l with
  | nil =>
    by_cases h : p.id = i
    · simp [findById, reemplazarOAgregar, List.find?, h]
    · have hbp : (p.id == i) = false := by simpa using h
      simp [findById, reemplazarOAgregar, List.find?, h, hbp]
  | cons q rest ih =>
    unfold reemplazarOAgregar
    by_cases hq : q.id = p.id
    · rw [if_pos hq]
      by_cases h : p.id = i
      · simp [findById, List.find?, h]
      · have hqi : ¬(q.id = i) := by rw [hq]; exact h
        have hbp : (p.id == i) = false := by simpa using h
        have hbq : (q.id == i) = false := by simpa using hqi
        simp [findById, List.find?, h, hbp, hbq]
    · rw [if_neg hq]
      by_cases hqi : q.id = i
      · have hpi : ¬(p.id = i) := by
          intro hcon
          exact hq (by rw [hqi, hcon])
        have hbp : (p.id == i) = false := by simpa using hpi
        have hbq : (q.id == i) = true := by simpa using hqi
        simp [findById, List.find?, hpi, hbp, hbq]
      · have hbq : (q.id == i) = false := by simpa using hqi
        simp only [findById, List.find?] at ih ⊢
        simp only [hbq]
        exact ih

theorem foldl_cargarLinea_findById (lineas : List Str) :
    ∀ (acc : List Producto × Nat) (i : Int),
    findById i (lineas.foldl cargarLinea acc).1
      = orO ((lineasDecodificadas lineas).filter (fun p => p.id == i)).getLast?
          (findById i acc.1) := by
  induction lineas with
  | nil => intro acc i; rfl
  | cons linea rest ih =>
    intro acc i
    rw [List.foldl_cons, ih (cargarLinea acc linea) i]
    by_cases hb : pstrip linea = []
    · simp [cargarLinea, lineasDecodificadas, List.filterMap_cons, hb]
    · cases hd : desdeLinea linea with
      | error e =>
        simp [cargarLinea, lineasDecodificadas, List.filterMap_cons, hb, hd, Except.toOption]
      | ok p =>
        have hstep : cargarLinea acc linea = (reemplazarOAgregar p acc.1, acc.2) := by
          simp [cargarLinea, hb, hd]
        have hdec : lineasDecodificadas (linea :: rest)
            = p :: lineasDecodificadas rest := by
          simp [lineasDecodificadas, List.filterMap_cons, hb, hd, Except.toOption]
        rw [hstep, hdec, findById_reemplazarOAgregar]
        by_cases hpi : p.id = i
        · rw [if_pos hpi]
          rw [List.filter_cons_of_pos (by simpa using hpi), getLast?_cons_orO,
            orO_orO_some]
        · rw [if_neg hpi]
          rw [List.filter_cons_of_neg (by simpa using hpi)]

/-- Number of non-blank undecodable lines — the diagnostics the load loop
prints. -/
def lineasCorruptas (lineas : List Str) : Nat :=
  lineas.countP (fun linea =>
    decide (pstrip linea ≠ []) && (desdeLinea linea).toOption.isNone)

theorem foldl_cargarLinea_diag (lineas : List Str) :
    ∀ acc : List Producto × Nat,
    (lineas.foldl cargarLinea acc).2 = acc.2 + lineasCorruptas lineas := by
  induction lineas with
  | nil => intro acc; simp [lineasCorruptas]
  | cons linea rest ih =>
    intro acc
    rw [List.foldl_cons, ih (cargarLinea acc linea)]
    by_cases hb : pstrip linea = []
    · simp [cargarLinea, lineasCorruptas, List.countP_cons, hb]
    · cases hd : desdeLinea linea with
      | error e =>
        simp only [cargarLinea, if_neg hb, hd]
        simp [lineasCorruptas, List.countP_cons, hb, hd, Except.toOption]
        omega
      | ok p =>
        simp only [cargarLinea, if_neg hb, hd]
        simp [lineasCorruptas, List.countP_cons, hb, hd, Except.toOption]

theorem pstrip_ne_nil_of_head (c : Char) (t : Str) (hc : isWs c = false) :
    pstrip (c :: t) ≠ [] := by
  intro hnil
  unfold pstrip at hnil
  rw [List.dropWhile_cons] at hnil
  simp only [hc, Bool.false_eq_true, if_false] at hnil
  have h2 : (c :: t).reverse.dropWhile isWs = [] := by
    have := congrArg List.reverse hnil
    simpa using this
  have h3 := List.dropWhile_eq_nil_iff.mp h2 c (by simp)
  rw [hc] at h3
  exact Bool.false_ne_true h3

theorem intToStr_ne_nil (n : Int) : intToStr n ≠ [] := by
  unfold intToStr
  split
  · simp
  · exact natToStr_ne_nil _

theorem aLinea_nonblank (p : Producto) : pstrip (aLinea p) ≠ [] := by
  cases hl : intToStr p.id with
  | nil => exact absurd hl (intToStr_ne_nil p.id)
  | cons c t =>
    have hc : isWs c = false :=
      intToStr_no_ws p.id c (hl ▸ List.mem_cons_self c t)
    have : aLinea p = c :: (t ++ '|' :: (p.nombre ++ '|' :: (intToStr p.cantidad ++ '|' ::
        (ratToStr p.precio ++ ['\n'])))) := by
      rw [aLinea, hl]
      rfl
    rw [this]
    exact pstrip_ne_nil_of_head c _ hc

theorem reemplazarOAgregar_of_fresh (p : Producto) (l : List Producto)
    (h : ∀ q ∈ l, q.id ≠ p.id) : reemplazarOAgregar p l = l ++ [p] := by
  induction l with
  | nil => rfl
  | cons q rest ih =>
    unfold reemplazarOAgregar
    rw [if_neg (h q (List.mem_cons_self q rest)),
      ih (fun r hr => h r (List.mem_cons_of_mem q hr))]
    rfl

theorem foldl_cargarLinea_encoded (productos : List Producto)
    (hv : ∀ p ∈ productos, ValidS910 p ∧ '|' ∉ p.nombre) :
    ∀ acc : List Producto × Nat,
    (productos.map aLinea).foldl cargarLinea acc
      = (productos.foldl (fun l p => reemplazarOAgregar p l) acc.1, acc.2) := by
  induction productos with
  | nil => intro acc; rfl
  | cons p rest ih =>
    intro acc
    obtain ⟨hvp, hpipe⟩ := hv p (List.mem_cons_self p rest)
    simp only [List.map_cons, List.foldl_cons]
    have hstep : cargarLinea acc (aLinea p) = (reemplazarOAgregar p acc.1, acc.2) := by
      simp [cargarLinea, aLinea_nonblank p, desdeLinea_aLinea p hvp hpipe]
    rw [hstep, ih (fun q hq => hv q (List.mem_cons_of_mem p hq))]

theorem foldl_reemplazar_fresh (productos : List Producto) :
    ∀ acc : List Producto,
    (∀ p ∈ productos, ∀ q ∈ acc, q.id ≠ p.id) →
    ((productos.map Producto.id).Nodup) →
    productos.foldl (fun l p => reemplazarOAgregar p l) acc = acc ++ productos := by
  induction productos with
  | nil => intro acc _ _; simp
  | cons p rest ih =>
    intro acc hfresh hnd
    simp only [List.map_cons, List.nodup_cons] at hnd
    simp only [List.foldl_cons]
    rw [reemplazarOAgregar_of_fresh p acc
      (fun q hq => hfresh p (List.mem_cons_self p rest) q hq)]
    rw [ih (acc ++ [p]) ?_ hnd.2]
    · simp
    · intro r hr q hq
      rcases List.mem_append.mp hq with hq | hq
      · exact hfresh r (List.mem_cons_of_mem p hr) q hq
      · simp only [List.mem_singleton] at hq
        subst hq
        intro hcon
        exact hnd.1 (hcon ▸ List.mem_map_of_mem Producto.id hr)

/-! ### The atomic persistence step as an effect trace (C2)

`_guardar_atomico` (Semana9-10) and `_atomic_write_json` (Semana11) perform
the same filesystem effect sequence: create a temporary file in the target's
directory, write the new content into it (line by line / dump then fsync),
then `os.replace` the temporary file over the target — a single atomic
transition by the operating system's contract.  The trace below lists the
externally visible filesystem state at every instant of that sequence; a
process crash at instant `k` leaves exactly the state `trace[k]`. -/

structure FsState (α : Type) where
  target : α
  temp : Option α
deriving DecidableEq, Repr

/-- The visible filesystem states of one atomic write: the initial state,
then one state per intermediate content of the temporary file (the target
untouched throughout), then the atomic replace installing the whole new
content at once. -/
def atomicWriteTrace (old new : α) (steps : List α) : List (FsState α) :=
  ⟨old, none⟩ :: steps.map (fun t => ⟨old, some t⟩) ++ [⟨new, none⟩]

/-- The trace of `Inventario._guardar_atomico` run on state `s`: the
temporary file receives the encoded lines one `tmp.write` at a time, then
`os.replace` commits them.  Contents are recorded as the physical lines a
reader would obtain at that instant. -/
def guardarAtomicoTrace (s : S910) : List (FsState (List Str)) :=
  atomicWriteTrace s.archivo (archivoDe s.productos)
    ((List.range (s.productos.length + 1)).map
      (fun k => archivoDe (s.productos.take k)))

theorem atomicWriteTrace_target (old new : α) (steps : List α) :
    (∀ fs ∈ atomicWriteTrace old new steps, fs.target = old ∨ fs.target = new)
      ∧ (∀ fs ∈ (atomicWriteTrace old new steps).dropLast, fs.target = old)
      ∧ (atomicWriteTrace old new steps).getLast? = some ⟨new, none⟩ := by
  refine ⟨?_, ?_, ?_⟩
  · intro fs hfs
    unfold atomicWriteTrace at hfs
    rcases List.mem_cons.mp hfs with h | h
    · exact Or.inl (by rw [h])
    · rcases List.mem_append.mp h with h2 | h2
      · obtain ⟨t, _, ht⟩ := List.mem_map.mp h2
        exact Or.inl (by rw [← ht])
      · simp only [List.mem_singleton] at h2
        exact Or.inr (by rw [h2])
  · intro fs hfs
    unfold atomicWriteTrace at hfs
    rw [show (⟨old, none⟩ : FsState α) :: steps.map (fun t => ⟨old, some t⟩) ++ [⟨new, none⟩]
        = ((⟨old, none⟩ : FsState α) :: steps.map (fun t => ⟨old, some t⟩)) ++ [⟨new, none⟩]
      from rfl] at hfs
    rw [List.dropLast_concat] at hfs
    rcases List.mem_cons.mp hfs with h | h
    · rw [h]
    · obtain ⟨t, _, ht⟩ := List.mem_map.mp h
      rw [← ht]
  · unfold atomicWriteTrace
    rw [show (⟨old, none⟩ : FsState α) :: steps.map (fun t => ⟨old, some t⟩) ++ [⟨new, none⟩]
        = ((⟨old, none⟩ : FsState α) :: steps.map (fun t => ⟨old, some t⟩)) ++ [⟨new, none⟩]
      from rfl]
    rw [List.getLast?_append_of_ne_nil _ (by simp)]
    rfl

/-! ### The Semana11 store (`Inventario` of `GestionInventarioAvanzado.py`)

A CPython `dict` is insertion ordered, looks up a unique key, updates a
present key in place and appends an absent one; it is modelled as an
association list with exactly those operations.  A Python `set` of ids is a
`Finset Int`. -/

def dlookup {κ β : Type} [DecidableEq κ] (k : κ) : List (κ × β) → Option β
  | [] => none
  | (k', v) :: rest => if k' = k then some v else dlookup k rest

def dupdate {κ β : Type} [DecidableEq κ] (k : κ) (v : β) :
    List (κ × β) → List (κ × β)
  | [] => []
  | (a, w) :: rest =>
    if a = k then (k, v) :: dupdate k v rest else (a, w) :: dupdate k v rest

def dremove {κ β : Type} [DecidableEq κ] (k : κ) :
    List (κ × β) → List (κ × β)
  | [] => []
  | (a, w) :: rest =>
    if a = k then dremove k rest else (a, w) :: dremove k rest

/-- Assignment `d[k] = v` on a Python dict: replace in place if present, append if
absent. -/
def dinsert {κ β : Type} [DecidableEq κ] (k : κ) (v : β) (l : List (κ × β)) :
    List (κ × β) :=
  if (dlookup k l).isSome then dupdate k v l else l ++ [(k, v)]

theorem dlookup_append {κ β : Type} [DecidableEq κ] (k : κ) (l1 l2 : List (κ × β)) :
    dlookup k (l1 ++ l2)
      = match dlookup k l1 with
        | some v => some v
        | none => dlookup k l2 := by
  induction l1 with
  | nil => rfl
  | cons kv rest ih =>
    obtain ⟨k', v⟩ := kv
    by_cases h : k' = k <;> simp [dlookup, h, ih]

theorem dlookup_update_self {κ β : Type} [DecidableEq κ] (k : κ) (v : β)
    (l : List (κ × β)) :
    dlookup k (dupdate k v l) = (dlookup k l).map (fun _ => v) := by
  induction l with
  | nil => rfl
  | cons kv rest ih =>
    obtain ⟨a, w⟩ := kv
    by_cases ha : a = k
    · subst ha
      simp [dlookup, dupdate]
    · simp [dlookup, dupdate, ha, ih]

theorem dlookup_update_other {κ β : Type} [DecidableEq κ] (k k' : κ) (v : β)
    (l : List (κ × β)) (h : k' ≠ k) :
    dlookup k' (dupdate k v l) = dlookup k' l := by
  induction l with
  | nil => rfl
  | cons kv rest ih =>
    obtain ⟨a, w⟩ := kv
    by_cases ha : a = k
    · subst ha
      have h2 : ¬(a = k') := fun hc => h (hc ▸ rfl)
      simp [dlookup, dupdate, h2, ih]
    · by_cases ha' : a = k'
      · simp [dlookup, dupdate, ha, ha', ih, h]
      · simp [dlookup, dupdate, ha, ha', ih]

theorem dlookup_remove_self {κ β : Type} [DecidableEq κ] (k : κ)
    (l : List (κ × β)) :
    dlookup k (dremove k l) = none := by
  induction l with
  | nil => rfl
  | cons kv rest ih =>
    obtain ⟨a, w⟩ := kv
    by_cases ha : a = k
    · simp [dremove, ha, ih]
    · simp [dremove, ha, dlookup, ih]

theorem dlookup_remove_other {κ β : Type} [DecidableEq κ] (k k' : κ)
    (l : List (κ × β)) (h : k' ≠ k) :
    dlookup k' (dremove k l) = dlookup k' l := by
  induction l with
  | nil => rfl
  | cons kv rest ih =>
    obtain ⟨a, w⟩ := kv
    by_cases ha : a = k
    · have h2 : ¬(a = k') := fun hc => h (hc ▸ ha)
      have h3 : ¬(k = k') := fun hc => h hc.symm
      simp [dremove, ha, dlookup, h2, h3, ih]
    · by_cases ha' : a = k'
      · simp [dremove, ha, dlookup, ha', h]
      · simp [dremove, ha, dlookup, ha', ih]

/-- The Semana11 store state: `_items` (id → record) and `_indice_nombres`
(folded name → set of ids). -/
structure Inv11 where
  items : List (Int × Producto)
  indice : List (Str × Finset Int)
deriving DecidableEq

def Inv11.empty : Inv11 := ⟨[], []⟩

/-- The index key of a name: `nombre.strip().lower()`. -/
def foldKey (s : Str) : Str := lowerStr (pstrip s)

/-- Model of `Inventario._idx_add`: `setdefault(key, set()).add(id)`. -/
def idxAdd (p : Producto) (idx : List (Str × Finset Int)) :
    List (Str × Finset Int) :=
  match dlookup (foldKey p.nombre) idx with
  | some b => dupdate (foldKey p.nombre) (insert p.id b) idx
  | none => idx ++ [(foldKey p.nombre, {p.id})]

/-- Model of `Inventario._idx_remove`: a missing or already-empty bucket returns
unchanged; otherwise discard the id, and pop the bucket if it became
empty. -/
def idxRemove (p : Producto) (idx : List (Str × Finset Int)) :
    List (Str × Finset Int) :=
  match dlookup (foldKey p.nombre) idx with
  | none => idx
  | some b =>
    if b = ∅ then idx
    else
      if b.erase p.id = ∅ then dremove (foldKey p.nombre) idx
      else dupdate (foldKey p.nombre) (b.erase p.id) idx

/-- Domain errors of the Semana11 store. -/
inductive InvErr
  | yaExiste
  | noExiste
  | valorInvalido
deriving DecidableEq, Repr

/-- Model of `Inventario.agregar`: raises `ProductoYaExiste` on a duplicate id,
otherwise inserts into `_items` and the name index.  (No persistence here:
the caller persists separately.) -/
def agregar (p : Producto) (inv : Inv11) : Except InvErr Inv11 :=
  if (dlookup p.id inv.items).isSome then .error .yaExiste
  else .ok ⟨inv.items ++ [(p.id, p)], idxAdd p inv.indice⟩

/-- Model of `Inventario.eliminar`: raises `ProductoNoExiste` when absent, otherwise
pops the record and removes it from the index. -/
def eliminar (id : Int) (inv : Inv11) : Except InvErr Inv11 :=
  match dlookup id inv.items with
  | none => .error .noExiste
  | some p => .ok ⟨dremove id inv.items, idxRemove p inv.indice⟩

/-- Model of `Inventario.actualizar_cantidad` (via the validating
`set_cantidad`). -/
def actualizarCantidad (id : Int) (c : Int) (inv : Inv11) : Except InvErr Inv11 :=
  match dlookup id inv.items with
  | none => .error .noExiste
  | some p =>
    if c < 0 then .error .valorInvalido
    else .ok ⟨dupdate id { p with cantidad := c } inv.items, inv.indice⟩

/-- Model of `Inventario.actualizar_precio` (via the validating `set_precio`). -/
def actualizarPrecio (id : Int) (pr : ℚ) (inv : Inv11) : Except InvErr Inv11 :=
  match dlookup id inv.items with
  | none => .error .noExiste
  | some p =>
    if pr < 0 then .error .valorInvalido
    else .ok ⟨dupdate id { p with precio := pr } inv.items, inv.indice⟩

/-- Model of `Inventario.buscar_por_nombre` (Semana11): trim and lower the pattern,
return `[]` for an empty pattern, else the matching records in `_items`
insertion order. -/
def buscarPorNombre11 (patron : Str) (inv : Inv11) : List Producto :=
  if lowerStr (pstrip patron) = [] then []
  else (inv.items.map Prod.snd).filter
    (fun p => containsB (lowerStr (pstrip patron)) (lowerStr p.nombre))

/-- The `"productos"` list of the JSON payload written by
`Inventario.guardar` (the surrounding `{"version":1, …}` envelope carries no
further state). -/
def guardarPayload (inv : Inv11) : List RecordDict :=
  inv.items.map (fun kv => kv.2.toDict)

/-- Failures of `Inventario.cargar`: the `json.load` call raising on a
malformed file, or `Producto.from_dict` rejecting one entry. -/
inductive LoadErr
  | json
  | entrada (e : ValErr)
deriving DecidableEq, Repr

/-- A persisted Semana11 file as `cargar` observes it. -/
inductive FileS11
  | ausente
  | corrupto
  | datos (productos : List RecordDict)
deriving DecidableEq

/-- The entry loop of `Inventario.cargar`: insert entry by entry; an entry
`from_dict` rejects raises out of the loop, leaving the store partially
repopulated (no skip-and-continue). -/
def cargarEntradas : List RecordDict → Inv11 → Inv11 × Option LoadErr
  | [], inv => (inv, none)
  | d :: rest, inv =>
    match Producto.fromDict d with
    | .error e => (inv, some (.entrada e))
    | .ok p => cargarEntradas rest ⟨dinsert p.id p inv.items, idxAdd p inv.indice⟩

/-- Model of `Inventario.cargar`: a missing file clears the store to empty; a
malformed JSON file raises *before* the clear, leaving the previous state;
otherwise clear and run the entry loop. -/
def cargar (f : FileS11) (inv : Inv11) : Inv11 × Option LoadErr :=
  match f with
  | .ausente => (Inv11.empty, none)
  | .corrupto => (inv, some .json)
  | .datos ds => cargarEntradas ds Inv11.empty

/-! ### Invariant A (C4): the name index mirrors the records -/

/-- There is some stored record with id `i` and folded name `k`. -/
def hayReg (items : List (Int × Producto)) (i : Int) (k : Str) : Prop :=
  ∃ p, dlookup i items = some p ∧ foldKey p.nombre = k

/-- Invariant A as the spec states it: every bucket present in the index is
nonempty and holds exactly the ids of the stored records whose folded name
is its key. -/
def InvarianteA (inv : Inv11) : Prop :=
  ∀ k b, dlookup k inv.indice = some b →
    b ≠ ∅ ∧ ∀ i : Int, i ∈ b ↔ hayReg inv.items i k

/-- Every stored record's folded name owns a bucket. -/
def IndiceCompleto (inv : Inv11) : Prop :=
  ∀ i p, dlookup i inv.items = some p →
    ∃ b, dlookup (foldKey p.nombre) inv.indice = some b

/-- Predicate: `_items` maps each key to a record carrying that id. -/
def ClavesId (inv : Inv11) : Prop :=
  ∀ i p, dlookup i inv.items = some p → p.id = i

/-- The inductive invariant carried across operations. -/
def BuenEstado (inv : Inv11) : Prop :=
  InvarianteA inv ∧ IndiceCompleto inv ∧ ClavesId inv

theorem buenEstado_empty : BuenEstado Inv11.empty := by
  refine ⟨?_, ?_, ?_⟩
  · intro k b h
    simp [Inv11.empty, dlookup] at h
  · intro i p h
    simp [Inv11.empty, dlookup] at h
  · intro i p h
    simp [Inv11.empty, dlookup] at h

theorem dlookup_append_single {κ β : Type} [DecidableEq κ] (k a : κ) (v : β)
    (l : List (κ × β)) (h : dlookup k l = none) :
    dlookup k (l ++ [(a, v)]) = if a = k then some v else none := by
  rw [dlookup_append, h]
  rfl

theorem dlookup_append_some {κ β : Type} [DecidableEq κ] (k : κ) {w : β}
    (l l2 : List (κ × β)) (h : dlookup k l = some w) :
    dlookup k (l ++ l2) = some w := by
  rw [dlookup_append, h]

theorem hayReg_append_fresh (items : List (Int × Producto)) (p : Producto)
    (i : Int) (k : Str) (hfresh : dlookup p.id items = none) :
    hayReg (items ++ [(p.id, p)]) i k
      ↔ ((i = p.id ∧ foldKey p.nombre = k) ∨ hayReg items i k) := by
  unfold hayReg
  cases hd : dlookup i items with
  | some q =>
    have hip : ¬(i = p.id) := by
      intro hc
      rw [hc, hfresh] at hd
      exact Option.noConfusion hd
    rw [dlookup_append_some i items _ hd]
    constructor
    · rintro ⟨p', hp', hk⟩
      exact Or.inr ⟨p', hd.symm ▸ hp', hk⟩
    · rintro (⟨hc, _⟩ | ⟨p', hp', hk⟩)
      · exact absurd hc hip
      · exact ⟨p', hd ▸ hp', hk⟩
  | none =>
    rw [dlookup_append_single i p.id p items hd]
    by_cases hip : p.id = i
    · rw [if_pos hip]
      constructor
      · rintro ⟨p', hp', hk⟩
        exact Or.inl ⟨hip.symm, by rw [← hk, Option.some.inj hp']⟩
      · rintro (⟨_, hk⟩ | ⟨p', hp', hk⟩)
        · exact ⟨p, rfl, hk⟩
        · exact Option.noConfusion hp'
    · rw [if_neg hip]
      constructor
      · rintro ⟨p', hp', _⟩
        exact Option.noConfusion hp'
      · rintro (⟨hc, _⟩ | ⟨p', hp', hk⟩)
        · exact absurd hc.symm hip
        · exact Option.noConfusion hp'

theorem hayReg_remove (items : List (Int × Producto)) (id : Int) (i : Int) (k : Str) :
    hayReg (dremove id items) i k ↔ (i ≠ id ∧ hayReg items i k) := by
  unfold hayReg
  by_cases hii : i = id
  · subst hii
    rw [dlookup_remove_self]
    constructor
    · rintro ⟨p', hp', _⟩
      exact Option.noConfusion hp'
    · rintro ⟨hc, _⟩
      exact absurd rfl hc
  · rw [dlookup_remove_other id i items hii]
    constructor
    · rintro ⟨p', hp', hk⟩
      exact ⟨hii, p', hp', hk⟩
    · rintro ⟨_, p', hp', hk⟩
      exact ⟨p', hp', hk⟩

theorem hayReg_update_samefold (items : List (Int × Producto)) (id : Int)
    (p p' : Producto) (i : Int) (k : Str)
    (hp : dlookup id items = some p) (hf : foldKey p'.nombre = foldKey p.nombre) :
    hayReg (dupdate id p' items) i k ↔ hayReg items i k := by
  unfold hayReg
  by_cases hii : i = id
  · subst hii
    rw [dlookup_update_self, hp]
    simp only [Option.map_some']
    constructor
    · rintro ⟨q, hq, hk⟩
      refine ⟨p, rfl, ?_⟩
      rw [← hf, Option.some.inj hq]
      exact hk
    · rintro ⟨q, hq, hk⟩
      refine ⟨p', rfl, ?_⟩
      rw [hf, Option.some.inj hq]
      exact hk
  · rw [dlookup_update_other id i p' items hii]

theorem buenEstado_agregar (p : Producto) (inv : Inv11) (h : BuenEstado inv)
    (hfresh : dlookup p.id inv.items = none) :
    BuenEstado ⟨inv.items ++ [(p.id, p)], idxAdd p inv.indice⟩ := by
  obtain ⟨hA, hC, hK⟩ := h
  refine ⟨?_, ?_, ?_⟩
  · intro k b hb
    unfold idxAdd at hb
    simp only at hb
    cases hidx : dlookup (foldKey p.nombre) inv.indice with
    | some b0 =>
      rw [hidx] at hb
      by_cases hk : k = foldKey p.nombre
      · subst hk
        rw [dlookup_update_self, hidx] at hb
        simp only [Option.map_some'] at hb
        have hbe : b = insert p.id b0 := (Option.some.inj hb).symm
        subst hbe
        refine ⟨Finset.insert_ne_empty _ _, ?_⟩
        intro i
        rw [Finset.mem_insert,
          hayReg_append_fresh inv.items p i (foldKey p.nombre) hfresh]
        have hiff := (hA (foldKey p.nombre) b0 hidx).2 i
        constructor
        · rintro (hc | hi)
          · exact Or.inl ⟨hc, rfl⟩
          · exact Or.inr (hiff.mp hi)
        · rintro (⟨hc, _⟩ | hr)
          · exact Or.inl hc
          · exact Or.inr (hiff.mpr hr)
      · rw [dlookup_update_other (foldKey p.nombre) k _ _ hk] at hb
        have hold := hA k b hb
        refine ⟨hold.1, ?_⟩
        intro i
        rw [hayReg_append_fresh inv.items p i k hfresh]
        constructor
        · intro hi
          exact Or.inr ((hold.2 i).mp hi)
        · rintro (⟨_, hkk⟩ | hr)
          · exact absurd hkk.symm hk
          · exact (hold.2 i).mpr hr
    | none =>
      rw [hidx] at hb
      cases hik : dlookup k inv.indice with
      | some bo =>
        rw [dlookup_append_some k _ _ hik] at hb
        have hbe : bo = b := Option.some.inj hb
        subst hbe
        have hk : k ≠ foldKey p.nombre := by
          intro hc
          rw [hc, hidx] at hik
          exact Option.noConfusion hik
        have hold := hA k bo hik
        refine ⟨hold.1, ?_⟩
        intro i
        rw [hayReg_append_fresh inv.items p i k hfresh]
        constructor
        · intro hi
          exact Or.inr ((hold.2 i).mp hi)
        · rintro (⟨_, hkk⟩ | hr)
          · exact absurd hkk.symm hk
          · exact (hold.2 i).mpr hr
      | none =>
        rw [dlookup_append_single k (foldKey p.nombre) _ _ hik] at hb
        by_cases hk : foldKey p.nombre = k
        · rw [if_pos hk] at hb
          subst hk
          have hbe : ({p.id} : Finset Int) = b := Option.some.inj hb
          subst hbe
          refine ⟨Finset.singleton_ne_empty _, ?_⟩
          intro i
          rw [Finset.mem_singleton,
            hayReg_append_fresh inv.items p i (foldKey p.nombre) hfresh]
          constructor
          · intro hc
            exact Or.inl ⟨hc, rfl⟩
          · rintro (⟨hc, _⟩ | hr)
            · exact hc
            · obtain ⟨q, hq, hfq⟩ := hr
              obtain ⟨bq, hbq⟩ := hC i q hq
              rw [hfq, hidx] at hbq
              exact Option.noConfusion hbq
        · rw [if_neg hk] at hb
          exact Option.noConfusion hb
  · intro i q hq
    simp only at hq
    cases hd : dlookup i inv.items with
    | some q0 =>
      rw [dlookup_append_some i _ _ hd] at hq
      have hqe : q0 = q := Option.some.inj hq
      subst hqe
      obtain ⟨b, hb⟩ := hC i q0 hd
      unfold idxAdd
      simp only
      cases hidx : dlookup (foldKey p.nombre) inv.indice with
      | some b0 =>
        by_cases hk : foldKey q0.nombre = foldKey p.nombre
        · refine ⟨insert p.id b0, ?_⟩
          rw [hk, dlookup_update_self, hidx]
          rfl
        · refine ⟨b, ?_⟩
          rw [dlookup_update_other (foldKey p.nombre) _ _ _ hk]
          exact hb
      | none =>
        refine ⟨b, ?_⟩
        exact dlookup_append_some _ _ _ hb
    | none =>
      rw [dlookup_append_single i p.id p _ hd] at hq
      by_cases hip : p.id = i
      · rw [if_pos hip] at hq
        have hpq : p = q := Option.some.inj hq
        subst hpq
        unfold idxAdd
        simp only
        cases hidx : dlookup (foldKey p.nombre) inv.indice with
        | some b0 =>
          refine ⟨insert p.id b0, ?_⟩
          rw [dlookup_update_self, hidx]
          rfl
        | none =>
          refine ⟨{p.id}, ?_⟩
          rw [dlookup_append_single _ _ _ _ hidx, if_pos rfl]
      · rw [if_neg hip] at hq
        exact Option.noConfusion hq
  · intro i q hq
    simp only at hq
    cases hd : dlookup i inv.items with
    | some q0 =>
      rw [dlookup_append_some i _ _ hd] at hq
      rw [← Option.some.inj hq]
      exact hK i q0 hd
    | none =>
      rw [dlookup_append_single i p.id p _ hd] at hq
      by_cases hip : p.id = i
      · rw [if_pos hip] at hq
        rw [← Option.some.inj hq]
        exact hip
      · rw [if_neg hip] at hq
        exact Option.noConfusion hq

theorem buenEstado_eliminar (id : Int) (p : Producto) (inv : Inv11)
    (h : BuenEstado inv) (hp : dlookup id inv.items = some p) :
    BuenEstado ⟨dremove id inv.items, idxRemove p inv.indice⟩ := by
  obtain ⟨hA, hC, hK⟩ := h
  have hpid : p.id = id := hK id p hp
  obtain ⟨b0, hb0⟩ := hC id p hp
  have hb0inv := hA (foldKey p.nombre) b0 hb0
  have hidb0 : id ∈ b0 := (hb0inv.2 id).mpr ⟨p, hp, rfl⟩
  have hb0ne : b0 ≠ ∅ := hb0inv.1
  have hmem_ne : ∀ k b, k ≠ foldKey p.nombre → dlookup k inv.indice = some b →
      ∀ i ∈ b, i ≠ id := by
    intro k b hk hbk i hib hii
    subst hii
    obtain ⟨q, hq, hfq⟩ := ((hA k b hbk).2 i).mp hib
    have hqp : q = p := Option.some.inj (hq.symm.trans hp)
    exact hk (by rw [← hfq, hqp])
  have hidxr : idxRemove p inv.indice
      = if b0.erase p.id = ∅ then dremove (foldKey p.nombre) inv.indice
        else dupdate (foldKey p.nombre) (b0.erase p.id) inv.indice := by
    unfold idxRemove
    rw [hb0]
    simp only [hb0ne, if_false]
  rw [hidxr, hpid]
  by_cases he : b0.erase id = ∅
  · rw [if_pos he]
    refine ⟨?_, ?_, ?_⟩
    · intro k b hbk
      simp only at hbk
      by_cases hk : k = foldKey p.nombre
      · rw [hk, dlookup_remove_self] at hbk
        exact Option.noConfusion hbk
      · rw [dlookup_remove_other _ _ _ hk] at hbk
        have hold := hA k b hbk
        refine ⟨hold.1, ?_⟩
        intro i
        rw [hayReg_remove]
        constructor
        · intro hib
          exact ⟨hmem_ne k b hk hbk i hib, (hold.2 i).mp hib⟩
        · rintro ⟨_, hr⟩
          exact (hold.2 i).mpr hr
    · intro i q hq
      simp only at hq
      by_cases hii : i = id
      · rw [hii, dlookup_remove_self] at hq
        exact Option.noConfusion hq
      · rw [dlookup_remove_other _ _ _ hii] at hq
        obtain ⟨bq, hbq⟩ := hC i q hq
        by_cases hfk : foldKey q.nombre = foldKey p.nombre
        · exfalso
          have hib0 : i ∈ b0 :=
            ((hA (foldKey p.nombre) b0 hb0).2 i).mpr ⟨q, hq, hfk⟩
          have : i ∈ b0.erase id := Finset.mem_erase.mpr ⟨hii, hib0⟩
          rw [he] at this
          exact absurd this (Finset.not_mem_empty i)
        · refine ⟨bq, ?_⟩
          rw [dlookup_remove_other _ _ _ hfk]
          exact hbq
    · intro i q hq
      simp only at hq
      by_cases hii : i = id
      · rw [hii, dlookup_remove_self] at hq
        exact Option.noConfusion hq
      · rw [dlookup_remove_other _ _ _ hii] at hq
        exact hK i q hq
  · rw [if_neg he]
    refine ⟨?_, ?_, ?_⟩
    · intro k b hbk
      simp only at hbk
      by_cases hk : k = foldKey p.nombre
      · subst hk
        rw [dlookup_update_self, hb0] at hbk
        simp only [Option.map_some'] at hbk
        have hbe : b = b0.erase id := (Option.some.inj hbk).symm
        subst hbe
        refine ⟨he, ?_⟩
        intro i
        rw [Finset.mem_erase, hayReg_remove]
        have hiff := (hA (foldKey p.nombre) b0 hb0).2 i
        constructor
        · rintro ⟨hii, hib⟩
          exact ⟨hii, hiff.mp hib⟩
        · rintro ⟨hii, hr⟩
          exact ⟨hii, hiff.mpr hr⟩
      · rw [dlookup_update_other _ _ _ _ hk] at hbk
        have hold := hA k b hbk
        refine ⟨hold.1, ?_⟩
        intro i
        rw [hayReg_remove]
        constructor
        · intro hib
          exact ⟨hmem_ne k b hk hbk i hib, (hold.2 i).mp hib⟩
        · rintro ⟨_, hr⟩
          exact (hold.2 i).mpr hr
    · intro i q hq
      simp only at hq
      by_cases hii : i = id
      · rw [hii, dlookup_remove_self] at hq
        exact Option.noConfusion hq
      · rw [dlookup_remove_other _ _ _ hii] at hq
        obtain ⟨bq, hbq⟩ := hC i q hq
        by_cases hfk : foldKey q.nombre = foldKey p.nombre
        · refine ⟨b0.erase id, ?_⟩
          rw [hfk, dlookup_update_self, hb0]
          rfl
        · refine ⟨bq, ?_⟩
          rw [dlookup_update_other _ _ _ _ hfk]
          exact hbq
    · intro i q hq
      simp only at hq
      by_cases hii : i = id
      · rw [hii, dlookup_remove_self] at hq
        exact Option.noConfusion hq
      · rw [dlookup_remove_other _ _ _ hii] at hq
        exact hK i q hq

theorem buenEstado_update (id : Int) (p p' : Producto) (inv : Inv11)
    (h : BuenEstado inv) (hp : dlookup id inv.items = some p)
    (hid : p'.id = p.id) (hf : foldKey p'.nombre = foldKey p.nombre) :
    BuenEstado ⟨dupdate id p' inv.items, inv.indice⟩ := by
  obtain ⟨hA, hC, hK⟩ := h
  refine ⟨?_, ?_, ?_⟩
  · intro k b hbk
    simp only at hbk
    have hold := hA k b hbk
    refine ⟨hold.1, ?_⟩
    intro i
    show i ∈ b ↔ hayReg (dupdate id p' inv.items) i k
    rw [hayReg_update_samefold inv.items id p p' i k hp hf]
    exact hold.2 i
  · intro i q hq
    simp only at hq
    by_cases hii : i = id
    · subst hii
      rw [dlookup_update_self, hp] at hq
      simp only [Option.map_some'] at hq
      have hq' : p' = q := Option.some.inj hq
      subst hq'
      obtain ⟨b, hb⟩ := hC i p hp
      exact ⟨b, by rw [hf]; exact hb⟩
    · rw [dlookup_update_other _ _ _ _ hii] at hq
      exact hC i q hq
  · intro i q hq
    simp only at hq
    by_cases hii : i = id
    · subst hii
      rw [dlookup_update_self, hp] at hq
      simp only [Option.map_some'] at hq
      rw [← Option.some.inj hq, hid]
      exact hK i p hp
    · rw [dlookup_update_other _ _ _ _ hii] at hq
      exact hK i q hq

/-- A mutating call of the Semana11 menu loop. -/
inductive Op
  | alta (p : Producto)
  | baja (id : Int)
  | cambioCantidad (id : Int) (c : Int)
  | cambioPrecio (id : Int) (pr : ℚ)

/-- Run one operation; a raised domain error is caught by the CLI loop and
leaves the store unchanged. -/
def aplicarOp (inv : Inv11) (op : Op) : Inv11 :=
  match op with
  | .alta p =>
    match agregar p inv with
    | .ok s => s
    | .error _ => inv
  | .baja id =>
    match eliminar id inv with
    | .ok s => s
    | .error _ => inv
  | .cambioCantidad id c =>
    match actualizarCantidad id c inv with
    | .ok s => s
    | .error _ => inv
  | .cambioPrecio id pr =>
    match actualizarPrecio id pr inv with
    | .ok s => s
    | .error _ => inv

/-- Run a whole sequence of operations from a fresh store. -/
def ejecutar (ops : List Op) : Inv11 := ops.foldl aplicarOp Inv11.empty

theorem buenEstado_aplicarOp (inv : Inv11) (op : Op) (h : BuenEstado inv) :
    BuenEstado (aplicarOp inv op) := by
  cases op with
  | alta p =>
    by_cases hd : (dlookup p.id inv.items).isSome
    · simp only [aplicarOp, agregar, if_pos hd]
      exact h
    · have hfresh : dlookup p.id inv.items = none :=
        Option.not_isSome_iff_eq_none.mp hd
      simp only [aplicarOp, agregar, if_neg hd]
      exact buenEstado_agregar p inv h hfresh
  | baja id =>
    cases hd : dlookup id inv.items with
    | none =>
      simp only [aplicarOp, eliminar, hd]
      exact h
    | some p =>
      simp only [aplicarOp, eliminar, hd]
      exact buenEstado_eliminar id p inv h hd
  | cambioCantidad id c =>
    cases hd : dlookup id inv.items with
    | none =>
      simp only [aplicarOp, actualizarCantidad, hd]
      exact h
    | some p =>
      by_cases hc : c < 0
      · simp only [aplicarOp, actualizarCantidad, hd, if_pos hc]
        exact h
      · simp only [aplicarOp, actualizarCantidad, hd, if_neg hc]
        exact buenEstado_update id p { p with cantidad := c } inv h hd rfl rfl
  | cambioPrecio id pr =>
    cases hd : dlookup id inv.items with
    | none =>
      simp only [aplicarOp, actualizarPrecio, hd]
      exact h
    | some p =>
      by_cases hc : pr < 0
      · simp only [aplicarOp, actualizarPrecio, hd, if_pos hc]
        exact h
      · simp only [aplicarOp, actualizarPrecio, hd, if_neg hc]
        exact buenEstado_update id p { p with precio := pr } inv h hd rfl rfl

theorem ejecutar_buenEstado (ops : List Op) : BuenEstado (ejecutar ops) := by
  unfold ejecutar
  suffices h : ∀ inv, BuenEstado inv → BuenEstado (ops.foldl aplicarOp inv) from
    h Inv11.empty buenEstado_empty
  induction ops with
  | nil =>
    intro inv h
    exact h
  | cons op rest ih =>
    intro inv h
    rw [List.foldl_cons]
    exact ih _ (buenEstado_aplicarOp inv op h)

/-- The trace of `Inventario._atomic_write_json` saving store `inv` over a
file holding `old`: `NamedTemporaryFile` creates the empty temp file,
`json.dump`+`flush`+`fsync` force the whole payload into it, then
`os.replace` commits. -/
def atomicWriteJsonTrace (old : List RecordDict) (inv : Inv11) :
    List (FsState (List RecordDict)) :=
  atomicWriteTrace old (guardarPayload inv) [[], guardarPayload inv]

theorem dinsert_fresh {κ β : Type} [DecidableEq κ] (k : κ) (v : β)
    (l : List (κ × β)) (h : dlookup k l = none) : dinsert k v l = l ++ [(k, v)] := by
  unfold dinsert
  rw [h]
  rfl

theorem cargarEntradas_roundtrip (items : List (Int × Producto)) :
    ∀ inv : Inv11,
    (∀ kv ∈ items, kv.1 = kv.2.id ∧ ValidS11 kv.2) →
    ((items.map Prod.fst).Nodup) →
    (∀ kv ∈ items, dlookup kv.1 inv.items = none) →
    (cargarEntradas (items.map (fun kv => kv.2.toDict)) inv).1.items
        = inv.items ++ items
      ∧ (cargarEntradas (items.map (fun kv => kv.2.toDict)) inv).2 = none := by
  induction items with
  | nil =>
    intro inv _ _ _
    simp [cargarEntradas]
  | cons kv rest ih =>
    obtain ⟨k, p⟩ := kv
    intro inv hv hnd hfresh
    obtain ⟨hkp, hvp⟩ := hv (k, p) (List.mem_cons_self _ _)
    simp only at hkp
    have hkfresh : dlookup p.id inv.items = none := by
      rw [← hkp]
      exact hfresh (k, p) (List.mem_cons_self _ _)
    simp only [List.map_cons, cargarEntradas, fromDict_toDict p hvp]
    rw [dinsert_fresh _ _ _ hkfresh]
    simp only [List.map_cons, List.nodup_cons] at hnd
    have hfresh' : ∀ kv' ∈ rest,
        dlookup kv'.1 (inv.items ++ [(p.id, p)]) = none := by
      intro kv' hm
      have h1 : dlookup kv'.1 inv.items = none :=
        hfresh kv' (List.mem_cons_of_mem _ hm)
      rw [dlookup_append_single _ _ _ _ h1, if_neg ?_]
      intro hc
      apply hnd.1
      rw [hkp, hc]
      exact List.mem_map_of_mem Prod.fst hm
    obtain ⟨h1, h2⟩ := ih ⟨inv.items ++ [(p.id, p)], idxAdd p inv.indice⟩
      (fun kv' hm => hv kv' (List.mem_cons_of_mem _ hm)) hnd.2 hfresh'
    refine ⟨?_, h2⟩
    rw [h1]
    simp [hkp]

theorem cargarDesdeArchivo_encoded (productos : List Producto)
    (hv : ∀ p ∈ productos, ValidS910 p ∧ '|' ∉ p.nombre)
    (hnd : (productos.map Producto.id).Nodup) :
    (cargarDesdeArchivo ⟨[], productos.map aLinea⟩).1.productos = productos
      ∧ (cargarDesdeArchivo ⟨[], productos.map aLinea⟩).2 = 0 := by
  unfold cargarDesdeArchivo
  simp only
  rw [foldl_cargarLinea_encoded productos hv ([], 0)]
  refine ⟨?_, rfl⟩
  show productos.foldl (fun l p => reemplazarOAgregar p l) [] = productos
  rw [foldl_reemplazar_fresh productos []
    (fun p _ q hq => absurd hq (List.not_mem_nil q)) hnd]
  rfl

theorem orO_right_none (a : Option Producto) : orO a none = a := by
  cases a <;> rfl

theorem startsB_iff (pat s : Str) : startsB pat s = true ↔ ∃ t, s = pat ++ t := by
  induction pat generalizing s with
  | nil =>
    simp [startsB]
  | cons a pat' ih =>
    cases s with
    | nil =>
      simp [startsB]
    | cons b bs =>
      simp only [startsB, Bool.and_eq_true, decide_eq_true_eq, ih bs]
      constructor
      · rintro ⟨rfl, t, rfl⟩
        exact ⟨t, rfl⟩
      · rintro ⟨t, ht⟩
        have hb : a = b := (List.cons.inj ht).1.symm
        exact ⟨hb, t, (List.cons.inj ht).2⟩

theorem containsB_iff (pat s : Str) :
    containsB pat s = true ↔ ∃ u v, s = u ++ pat ++ v := by
  induction s with
  | nil =>
    simp only [containsB, decide_eq_true_eq]
    constructor
    · rintro rfl
      exact ⟨[], [], rfl⟩
    · rintro ⟨u, v, huv⟩
      have h' := huv.symm
      rw [List.append_assoc] at h'
      obtain ⟨_, hpv⟩ := List.append_eq_nil.mp h'
      exact (List.append_eq_nil.mp hpv).1
  | cons b bs ih =>
    simp only [containsB, Bool.or_eq_true, startsB_iff, ih]
    constructor
    · rintro (⟨t, ht⟩ | ⟨u, v, huv⟩)
      · exact ⟨[], t, by simpa using ht⟩
      · exact ⟨b :: u, v, by simp [huv]⟩
    · rintro ⟨u, v, huv⟩
      cases u with
      | nil =>
        exact Or.inl ⟨v, by simpa using huv⟩
      | cons c u' =>
        have huv' : b :: bs = c :: (u' ++ pat ++ v) := by simpa using huv
        exact Or.inr ⟨u', v, (List.cons.inj huv').2⟩

/-! ## The claims -/

/-- C1: when the persistence step of a mutating Semana9-10 operation fails,
the operation surfaces the failure to the caller and the store's observable
in-memory state is exactly the pre-call state: a failed insert leaves the
new id absent (the appended record is popped), a failed delete leaves the
removed record restored at its logical position, and a failed update —
quantity-only, price-only, both, or neither (`cant`/`prec` are the optional
arguments of `actualizar_por_id`, whose setters succeeded, reaching the
persistence step) — leaves every field at its pre-call value. -/
theorem C1_rollback_al_fallar_persistencia (s : S910) (p : Producto) (id : Int)
    (cant : Option Int) (prec : Option ℚ) :
    (s.productos.any (fun q => q.id == p.id) = false →
      anadirProducto true p s = (.error .persistencia, s))
    ∧ (∀ a p0 b, removeFirstSplit id s.productos = some (a, p0, b) →
      eliminarPorId true id s = (.error .persistencia, s))
    ∧ (∀ a p0 b p', removeFirstSplit id s.productos = some (a, p0, b) →
      actualizarCampos p0 cant prec = .ok p' →
      actualizarPorId true id cant prec s = (.error .persistencia, s)) := by
  refine ⟨?_, ?_, ?_⟩
  · intro hdup
    unfold anadirProducto
    simp only [hdup, Bool.false_eq_true, if_false, guardarAtomico, if_pos rfl]
    rw [List.dropLast_concat]
    rfl
  · intro a p0 b hsplit
    obtain ⟨hsum, _⟩ := removeFirstSplit_eq id s.productos a p0 b hsplit
    unfold eliminarPorId
    rw [hsplit]
    simp only [guardarAtomico, if_pos rfl]
    rw [← hsum]
    rfl
  · intro a p0 b p' hsplit hcampos
    obtain ⟨hsum, _⟩ := removeFirstSplit_eq id s.productos a p0 b hsplit
    unfold actualizarPorId
    rw [hsplit]
    simp only [hcampos, guardarAtomico, if_pos rfl]
    rw [← hsum]
    rfl

/-- Witness for C1 at a one-record store, covering a quantity-only and a
price-only update besides insert and delete. -/
theorem C1_testigo :
    anadirProducto true ⟨2, ['b'], 1, 1⟩ ⟨[⟨1, ['a'], 1, 1⟩], []⟩
        = (.error .persistencia, ⟨[⟨1, ['a'], 1, 1⟩], []⟩)
      ∧ eliminarPorId true 1 ⟨[⟨1, ['a'], 1, 1⟩], []⟩
        = (.error .persistencia, ⟨[⟨1, ['a'], 1, 1⟩], []⟩)
      ∧ actualizarPorId true 1 (some 5) none ⟨[⟨1, ['a'], 1, 1⟩], []⟩
        = (.error .persistencia, ⟨[⟨1, ['a'], 1, 1⟩], []⟩)
      ∧ actualizarPorId true 1 none (some 5) ⟨[⟨1, ['a'], 1, 1⟩], []⟩
        = (.error .persistencia, ⟨[⟨1, ['a'], 1, 1⟩], []⟩) := by
  have h1 := C1_rollback_al_fallar_persistencia ⟨[⟨1, ['a'], 1, 1⟩], []⟩
    ⟨2, ['b'], 1, 1⟩ 1 (some 5) none
  have h2 := C1_rollback_al_fallar_persistencia ⟨[⟨1, ['a'], 1, 1⟩], []⟩
    ⟨2, ['b'], 1, 1⟩ 1 none (some 5)
  exact ⟨h1.1 (by decide), h1.2.1 [] ⟨1, ['a'], 1, 1⟩ [] (by decide),
    h1.2.2 [] ⟨1, ['a'], 1, 1⟩ [] ⟨1, ['a'], 5, 1⟩ (by decide) (by decide),
    h2.2.2 [] ⟨1, ['a'], 1, 1⟩ [] ⟨1, ['a'], 1, 5⟩ (by decide) (by decide)⟩

/-- C2: both atomic writers put the whole new content into a temporary file
in the target's directory and then atomically replace the target, so at
every externally visible instant of the write — in particular at any crash
point — the target holds either the complete old content or the complete new
content; all states before the final replace still hold the old content, and
the final state holds the new. -/
theorem C2_escritura_atomica (s : S910) (old11 : List RecordDict) (inv : Inv11) :
    (∀ fs ∈ guardarAtomicoTrace s,
        fs.target = s.archivo ∨ fs.target = archivoDe s.productos)
    ∧ (∀ fs ∈ (guardarAtomicoTrace s).dropLast, fs.target = s.archivo)
    ∧ (guardarAtomicoTrace s).getLast? = some ⟨archivoDe s.productos, none⟩
    ∧ (∀ fs ∈ atomicWriteJsonTrace old11 inv,
        fs.target = old11 ∨ fs.target = guardarPayload inv)
    ∧ (∀ fs ∈ (atomicWriteJsonTrace old11 inv).dropLast, fs.target = old11)
    ∧ (atomicWriteJsonTrace old11 inv).getLast?
        = some ⟨guardarPayload inv, none⟩ := by
  unfold guardarAtomicoTrace atomicWriteJsonTrace
  have h1 := atomicWriteTrace_target s.archivo (archivoDe s.productos)
    ((List.range (s.productos.length + 1)).map
      (fun k => archivoDe (s.productos.take k)))
  have h2 := atomicWriteTrace_target old11 (guardarPayload inv)
    [[], guardarPayload inv]
  exact ⟨h1.1, h1.2.1, h1.2.2, h2.1, h2.2.1, h2.2.2⟩

/-- Witness for C2 at a one-record store: the mid-write state (temp file
half written) still shows the old target content. -/
theorem C2_testigo :
    (FsState.target ⟨([] : List Str), some []⟩ = (S910.mk [⟨1, ['a'], 1, 1⟩] []).archivo
      ∨ FsState.target ⟨([] : List Str), some []⟩
          = archivoDe (S910.mk [⟨1, ['a'], 1, 1⟩] []).productos) :=
  (C2_escritura_atomica ⟨[⟨1, ['a'], 1, 1⟩], []⟩ [] Inv11.empty).1
    ⟨[], some []⟩ (by decide)

/-- C3 as stated is false on the line-based variant: the record
`(1, "a|b", 5, 2)` passes construction validation and is inserted and
persisted successfully, but reloading the persisted file yields an empty
store — its line splits into five columns and is skipped.  Records whose
names embed `\n` or `\r` (no `|` at all) are equally validated and
persisted, yet their single logical line reaches the reader as two physical
lines, both skipped. -/
theorem C3_contraejemplo :
    (Producto.mkS910 1 ['a', '|', 'b'] 5 2 = .ok ⟨1, ['a', '|', 'b'], 5, 2⟩
      ∧ (anadirProducto false ⟨1, ['a', '|', 'b'], 5, 2⟩ S910.empty).1 = .ok true
      ∧ (anadirProducto false ⟨1, ['a', '|', 'b'], 5, 2⟩ S910.empty).2.productos
          = [⟨1, ['a', '|', 'b'], 5, 2⟩]
      ∧ (cargarDesdeArchivo
          ⟨[], (anadirProducto false ⟨1, ['a', '|', 'b'], 5, 2⟩
            S910.empty).2.archivo⟩).1.productos = [])
    ∧ (Producto.mkS910 1 ['a', '\n', 'b'] 5 2 = .ok ⟨1, ['a', '\n', 'b'], 5, 2⟩
      ∧ '|' ∉ (['a', '\n', 'b'] : Str)
      ∧ (anadirProducto false ⟨1, ['a', '\n', 'b'], 5, 2⟩ S910.empty).1 = .ok true
      ∧ (cargarDesdeArchivo
          ⟨[], (anadirProducto false ⟨1, ['a', '\n', 'b'], 5, 2⟩
            S910.empty).2.archivo⟩).1.productos = [])
    ∧ (Producto.mkS910 1 ['a', '\r', 'b'] 5 2 = .ok ⟨1, ['a', '\r', 'b'], 5, 2⟩
      ∧ '|' ∉ (['a', '\r', 'b'] : Str)
      ∧ (anadirProducto false ⟨1, ['a', '\r', 'b'], 5, 2⟩ S910.empty).1 = .ok true
      ∧ (cargarDesdeArchivo
          ⟨[], (anadirProducto false ⟨1, ['a', '\r', 'b'], 5, 2⟩
            S910.empty).2.archivo⟩).1.productos = []) := by
  decide

/-- C3 amended: reloading the persisted representation reconstructs the
records mapping exactly — unconditionally for the JSON variant (whatever
store the load is applied to), and for the line-based variant provided no
record name contains the delimiter `|` or a newline character (`\n` or
`\r`, which universal-newline reading would re-split). -/
theorem C3_enmendada :
    (∀ inv s : Inv11,
      (∀ kv ∈ inv.items, kv.1 = kv.2.id ∧ ValidS11 kv.2) →
      ((inv.items.map Prod.fst).Nodup) →
      (cargar (.datos (guardarPayload inv)) s).1.items = inv.items
        ∧ (cargar (.datos (guardarPayload inv)) s).2 = none)
    ∧ (∀ productos : List Producto,
      (∀ p ∈ productos, ValidS910 p ∧ '|' ∉ p.nombre
        ∧ '\n' ∉ p.nombre ∧ '\r' ∉ p.nombre) →
      ((productos.map Producto.id).Nodup) →
      (cargarDesdeArchivo ⟨[], archivoDe productos⟩).1.productos = productos) := by
  constructor
  · intro inv s hv hnd
    show (cargarEntradas (guardarPayload inv) Inv11.empty).1.items = inv.items
      ∧ (cargarEntradas (guardarPayload inv) Inv11.empty).2 = none
    unfold guardarPayload
    obtain ⟨h1, h2⟩ := cargarEntradas_roundtrip inv.items Inv11.empty hv hnd
      (fun kv _ => rfl)
    constructor
    · rw [h1]
      rfl
    · exact h2
  · intro productos hv hnd
    rw [archivoDe_limpio productos (fun p hp => ⟨(hv p hp).2.2.1, (hv p hp).2.2.2⟩)]
    exact (cargarDesdeArchivo_encoded productos
      (fun p hp => ⟨(hv p hp).1, (hv p hp).2.1⟩) hnd).1

/-- Witness for C3 (amended) at one-record stores. -/
theorem C3_testigo :
    ((cargar (.datos (guardarPayload ⟨[(1, ⟨1, ['a'], 2, 3⟩)], [(['a'], {1})]⟩))
        Inv11.empty).1.items = [(1, ⟨1, ['a'], 2, 3⟩)]
      ∧ (cargar (.datos (guardarPayload ⟨[(1, ⟨1, ['a'], 2, 3⟩)], [(['a'], {1})]⟩))
        Inv11.empty).2 = none)
    ∧ (cargarDesdeArchivo
        ⟨[], archivoDe [⟨1, ['a'], 2, 3⟩]⟩).1.productos = [⟨1, ['a'], 2, 3⟩] :=
  ⟨C3_enmendada.1 ⟨[(1, ⟨1, ['a'], 2, 3⟩)], [(['a'], {1})]⟩ Inv11.empty
      (by decide) (by decide),
    C3_enmendada.2 [⟨1, ['a'], 2, 3⟩] (by decide) (by decide)⟩

/-- C4: after any sequence of Insert/Delete/Update operations (failed calls
raise and change nothing), every bucket present in the name index is
nonempty and contains exactly the ids of the stored records whose folded
name equals its key. -/
theorem C4_invarianteA (ops : List Op) :
    ∀ k b, dlookup k (ejecutar ops).indice = some b →
      b ≠ ∅ ∧ ∀ i : Int, i ∈ b ↔ hayReg (ejecutar ops).items i k :=
  (ejecutar_buenEstado ops).1

/-- Witness for C4: one insert, then the bucket of the folded name holds
exactly that id. -/
theorem C4_testigo :
    ({1} : Finset Int) ≠ ∅ ∧ ∀ i : Int, i ∈ ({1} : Finset Int) ↔
      hayReg (ejecutar [Op.alta ⟨1, ['w'], 3, 2⟩]).items i ['w'] :=
  C4_invarianteA [Op.alta ⟨1, ['w'], 3, 2⟩] ['w'] {1} (by decide)

/-- C5 as stated is false on the JSON variant: loading a file with a
decodable entry, an undecodable entry (id 0) and another decodable entry
aborts at the undecodable one — the store ends up with only the first
record, not with both decodable ones, and the error propagates. -/
theorem C5_contraejemplo :
    Producto.fromDict ⟨1, ['a'], 1, 1⟩ = .ok ⟨1, ['a'], 1, 1⟩
    ∧ Producto.fromDict ⟨0, ['b'], 1, 1⟩ = .error .idInvalido
    ∧ Producto.fromDict ⟨3, ['c'], 1, 1⟩ = .ok ⟨3, ['c'], 1, 1⟩
    ∧ cargar (.datos [⟨1, ['a'], 1, 1⟩, ⟨0, ['b'], 1, 1⟩, ⟨3, ['c'], 1, 1⟩])
        Inv11.empty
      = (⟨[(1, ⟨1, ['a'], 1, 1⟩)], [(['a'], {1})]⟩, some (.entrada .idInvalido)) := by
  decide

/-- C5 amended: the line-based loader skips each non-blank undecodable line
with a diagnostic and continues — the resulting store holds, for every id,
the last decodable entry carrying it, and the diagnostic count equals the
number of corrupt lines; the JSON loader instead aborts at the first entry
`from_dict` rejects. -/
theorem C5_enmendada :
    (∀ (lineas : List Str) (i : Int),
      findById i (cargarDesdeArchivo ⟨[], lineas⟩).1.productos
        = ((lineasDecodificadas lineas).filter (fun p => p.id == i)).getLast?
      ∧ (cargarDesdeArchivo ⟨[], lineas⟩).2 = lineasCorruptas lineas)
    ∧ (∀ (d : RecordDict) (rest : List RecordDict) (inv : Inv11) (e : ValErr),
      Producto.fromDict d = .error e →
      cargarEntradas (d :: rest) inv = (inv, some (.entrada e))) := by
  constructor
  · intro lineas i
    constructor
    · show findById i (lineas.foldl cargarLinea ([], 0)).1
        = ((lineasDecodificadas lineas).filter (fun p => p.id == i)).getLast?
      rw [foldl_cargarLinea_findById lineas ([], 0) i]
      exact orO_right_none _
    · show (lineas.foldl cargarLinea ([], 0)).2 = lineasCorruptas lineas
      rw [foldl_cargarLinea_diag lineas ([], 0)]
      simp
  · intro d rest inv e hd
    simp [cargarEntradas, hd]

/-- Witness for C5 (amended): the JSON loader aborts immediately on an
entry with id 0. -/
theorem C5_testigo :
    cargarEntradas [⟨0, ['b'], 1, 1⟩] Inv11.empty
      = (Inv11.empty, some (.entrada .idInvalido)) :=
  C5_enmendada.2 ⟨0, ['b'], 1, 1⟩ [] Inv11.empty .idInvalido (by decide)

/-- C6 as stated is false on the JSON variant: inserting a record whose id
is already present raises `ProductoYaExiste` instead of returning false. -/
theorem C6_contraejemplo :
    agregar ⟨1, ['a'], 1, 1⟩ ⟨[(1, ⟨1, ['a'], 1, 1⟩)], [(['a'], {1})]⟩
      = .error .yaExiste := by
  decide

/-- C6 amended: a duplicate-id insert leaves the records, the index and the
on-disk file untouched; the line-based variant reports it by returning
false (before ever touching the file), the JSON variant by raising
`ProductoYaExiste`. -/
theorem C6_enmendada :
    (∀ (fallo : Bool) (p : Producto) (s : S910),
      s.productos.any (fun q => q.id == p.id) = true →
      anadirProducto fallo p s = (.ok false, s))
    ∧ (∀ (p : Producto) (inv : Inv11), (dlookup p.id inv.items).isSome →
      agregar p inv = .error .yaExiste) := by
  constructor
  · intro fallo p s h
    simp [anadirProducto, h]
  · intro p inv h
    simp [agregar, h]

/-- Witness for C6 (amended) on one-record stores. -/
theorem C6_testigo :
    anadirProducto true ⟨1, ['b'], 2, 2⟩ ⟨[⟨1, ['a'], 1, 1⟩], [['l']]⟩
        = (.ok false, ⟨[⟨1, ['a'], 1, 1⟩], [['l']]⟩)
      ∧ agregar ⟨1, ['b'], 2, 2⟩ ⟨[(1, ⟨1, ['a'], 1, 1⟩)], [(['a'], {1})]⟩
        = .error .yaExiste :=
  ⟨C6_enmendada.1 true ⟨1, ['b'], 2, 2⟩ ⟨[⟨1, ['a'], 1, 1⟩], [['l']]⟩ (by decide),
    C6_enmendada.2 ⟨1, ['b'], 2, 2⟩ ⟨[(1, ⟨1, ['a'], 1, 1⟩)], [(['a'], {1})]⟩
      (by decide)⟩

/-- C7 as stated is false: the record `(1, "a|b", 5, 2)` passes both
constructors' validation, yet decoding its line encoding fails with a
wrong-column-count error. -/
theorem C7_contraejemplo :
    Producto.mkS910 1 ['a', '|', 'b'] 5 2 = .ok ⟨1, ['a', '|', 'b'], 5, 2⟩
    ∧ Producto.mkS11 1 ['a', '|', 'b'] 5 2 = .ok ⟨1, ['a', '|', 'b'], 5, 2⟩
    ∧ desdeLinea (aLinea ⟨1, ['a', '|', 'b'], 5, 2⟩) = .error .columnas := by
  decide

/-- C7 amended: decode-of-encode is the identity on every validated record
for the JSON dict codec, and on every validated record whose name is free
of the delimiter `|` for the line codec. -/
theorem C7_enmendada :
    (∀ p : Producto, ValidS910 p → '|' ∉ p.nombre →
      desdeLinea (aLinea p) = .ok p)
    ∧ (∀ p : Producto, ValidS11 p →
      Producto.fromDict (Producto.toDict p) = .ok p) :=
  ⟨desdeLinea_aLinea, fromDict_toDict⟩

/-- Witness for C7 (amended). -/
theorem C7_testigo :
    desdeLinea (aLinea ⟨1, ['a'], 1, 1⟩) = .ok ⟨1, ['a'], 1, 1⟩
      ∧ Producto.fromDict (Producto.toDict ⟨1, ['a'], 1, 1⟩) = .ok ⟨1, ['a'], 1, 1⟩ :=
  ⟨C7_enmendada.1 ⟨1, ['a'], 1, 1⟩ (by decide) (by decide),
    C7_enmendada.2 ⟨1, ['a'], 1, 1⟩ (by decide)⟩

/-- Whether an `Except` result is a success. -/
def esOk {ε α : Type} : Except ε α → Bool
  | .ok _ => true
  | .error _ => false

/-- C8 as stated is false on the Semana9-10 variant: construction with
id = 0 succeeds there (its setter only rejects negative ids), while the
claim requires failure for id ≤ 0. -/
theorem C8_contraejemplo :
    Producto.mkS910 0 ['x'] 1 1 = .ok ⟨0, ['x'], 1, 1⟩ := by
  decide

/-- C8 amended: construction fails exactly when id ≤ 0 (Semana11) /
id < 0 (Semana9-10), or the name trims to empty, or the quantity or price
is negative; on success the record carries the trimmed name and the given
field values, with no disk or index interaction (the constructors touch
neither). -/
theorem C8_enmendada (id : Int) (nombre : Str) (cant : Int) (precio : ℚ) :
    (esOk (Producto.mkS11 id nombre cant precio) = false
      ↔ (id ≤ 0 ∨ pstrip nombre = [] ∨ cant < 0 ∨ precio < 0))
    ∧ (esOk (Producto.mkS910 id nombre cant precio) = false
      ↔ (id < 0 ∨ pstrip nombre = [] ∨ cant < 0 ∨ precio < 0))
    ∧ (∀ p, Producto.mkS11 id nombre cant precio = .ok p →
        p = ⟨id, pstrip nombre, cant, precio⟩)
    ∧ (∀ p, Producto.mkS910 id nombre cant precio = .ok p →
        p = ⟨id, pstrip nombre, cant, precio⟩) := by
  refine ⟨?_, ?_, ?_, ?_⟩
  · unfold Producto.mkS11
    split_ifs <;> simp_all [esOk]
  · unfold Producto.mkS910
    split_ifs <;> simp_all [esOk]
  · intro p hp
    unfold Producto.mkS11 at hp
    split_ifs at hp
    · exact (Except.ok.inj hp).symm
  · intro p hp
    unfold Producto.mkS910 at hp
    split_ifs at hp
    · exact (Except.ok.inj hp).symm

/-- Witness for C8 (amended) at a concrete valid input with an untrimmed
name. -/
theorem C8_testigo :
    (esOk (Producto.mkS11 1 [' ', 'a', ' '] 2 3) = false
      ↔ ((1 : Int) ≤ 0 ∨ pstrip [' ', 'a', ' '] = [] ∨ (2 : Int) < 0 ∨ (3 : ℚ) < 0))
    ∧ Producto.mkS11 1 [' ', 'a', ' '] 2 3 = .ok ⟨1, ['a'], 2, 3⟩ := by
  constructor
  · exact (C8_enmendada 1 [' ', 'a', ' '] 2 3).1
  · have h := (C8_enmendada 1 [' ', 'a', ' '] 2 3).2.2.1
    have hok : Producto.mkS11 1 [' ', 'a', ' '] 2 3
        = .ok ⟨1, pstrip [' ', 'a', ' '], 2, 3⟩ := by decide
    rw [hok]
    rw [h ⟨1, pstrip [' ', 'a', ' '], 2, 3⟩ hok]
    decide

/-- The empty pattern is a substring of everything, as in Python. -/
theorem containsB_nil (s : Str) : containsB [] s = true := by
  cases s <;> simp [containsB, startsB]

/-- C9 as stated is false: the Semana9-10 search returns *all* records for
an empty pattern (no short-circuit), and the Semana11 search returns
matches in dictionary insertion order, here ids `[2, 1]`, not ascending. -/
theorem C9_contraejemplo :
    buscarPorNombre [] ⟨[⟨1, ['a'], 1, 1⟩], []⟩ = [⟨1, ['a'], 1, 1⟩]
    ∧ (buscarPorNombre11 ['a', 'b']
        (ejecutar [Op.alta ⟨2, ['a', 'b'], 1, 1⟩, Op.alta ⟨1, ['a', 'b'], 1, 1⟩])).map
          Producto.id
      = [2, 1] := by
  decide

/-- C9 amended: the Semana11 search trims the pattern, returns the empty
sequence when it trims to nothing, and otherwise returns exactly the
records whose lowered name contains the lowered pattern — in insertion
order, not sorted by id; the Semana9-10 search has no empty-pattern
short-circuit: the empty pattern matches every record. -/
theorem C9_enmendada :
    (∀ (patron : Str) (inv : Inv11), lowerStr (pstrip patron) = [] →
      buscarPorNombre11 patron inv = [])
    ∧ (∀ (patron : Str) (inv : Inv11) (p : Producto),
      lowerStr (pstrip patron) ≠ [] →
      (p ∈ buscarPorNombre11 patron inv
        ↔ p ∈ inv.items.map Prod.snd
          ∧ ∃ u v, lowerStr p.nombre = u ++ lowerStr (pstrip patron) ++ v))
    ∧ (∀ (termino : Str) (s : S910) (p : Producto),
      p ∈ buscarPorNombre termino s
        ↔ p ∈ s.productos
          ∧ ∃ u v, lowerStr p.nombre = u ++ lowerStr (pstrip termino) ++ v)
    ∧ (∀ s : S910, buscarPorNombre [] s = s.productos) := by
  refine ⟨?_, ?_, ?_, ?_⟩
  · intro patron inv h
    simp [buscarPorNombre11, h]
  · intro patron inv p h
    simp only [buscarPorNombre11, if_neg h]
    rw [List.mem_filter, containsB_iff]
  · intro termino s p
    unfold buscarPorNombre
    rw [List.mem_filter, containsB_iff]
  · intro s
    unfold buscarPorNombre
    exact List.filter_eq_self.mpr (fun p _ => containsB_nil (lowerStr p.nombre))

/-- Witness for C9 (amended) at concrete stores and patterns. -/
theorem C9_testigo :
    buscarPorNombre11 [' '] ⟨[(1, ⟨1, ['a'], 1, 1⟩)], [(['a'], {1})]⟩ = []
    ∧ (⟨1, ['a', 'b'], 1, 1⟩ : Producto)
        ∈ buscarPorNombre11 ['B'] ⟨[(1, ⟨1, ['a', 'b'], 1, 1⟩)], [(['a', 'b'], {1})]⟩
    ∧ (⟨1, ['a'], 1, 1⟩ : Producto) ∈ buscarPorNombre ['A'] ⟨[⟨1, ['a'], 1, 1⟩], []⟩ := by
  refine ⟨?_, ?_, ?_⟩
  · exact C9_enmendada.1 [' '] ⟨[(1, ⟨1, ['a'], 1, 1⟩)], [(['a'], {1})]⟩ (by decide)
  · exact (C9_enmendada.2.1 ['B'] ⟨[(1, ⟨1, ['a', 'b'], 1, 1⟩)], [(['a', 'b'], {1})]⟩
      ⟨1, ['a', 'b'], 1, 1⟩ (by decide)).mpr
      ⟨by decide, ['a'], [], by decide⟩
  · exact (C9_enmendada.2.2.1 ['A'] ⟨[⟨1, ['a'], 1, 1⟩], []⟩
      ⟨1, ['a'], 1, 1⟩).mpr ⟨by decide, [], [], by decide⟩

/-- C10 as stated is false on the Semana9-10 loader: it merges the file
into the existing list instead of clearing, so a record held in memory but
absent from the (empty) file survives the load, and loading the same file
into two different states yields different stores. -/
theorem C10_contraejemplo :
    (cargarDesdeArchivo ⟨[⟨1, ['x'], 1, 1⟩], []⟩).1.productos = [⟨1, ['x'], 1, 1⟩]
    ∧ (cargarDesdeArchivo ⟨[], []⟩).1.productos = [] := by
  decide

/-- C10 amended: the Semana11 `cargar` clears before repopulating, so for
every file except a malformed-JSON one (whose exception propagates before
the clear) the resulting state is a function of the file alone, and loading
is idempotent for every file; the Semana9-10 loader instead merges: an id
no decodable line carries keeps its in-memory record across the load. -/
theorem C10_enmendada :
    (∀ (f : FileS11) (s1 s2 : Inv11), f ≠ FileS11.corrupto →
      cargar f s1 = cargar f s2)
    ∧ (∀ (f : FileS11) (s : Inv11), cargar f (cargar f s).1 = cargar f s)
    ∧ (∀ (s : S910) (i : Int),
      ((lineasDecodificadas s.archivo).filter (fun p => p.id == i)) = [] →
      findById i (cargarDesdeArchivo s).1.productos = findById i s.productos) := by
  refine ⟨?_, ?_, ?_⟩
  · intro f s1 s2 hf
    cases f with
    | ausente => rfl
    | corrupto => exact absurd rfl hf
    | datos ds => rfl
  · intro f s
    cases f with
    | ausente => rfl
    | corrupto => rfl
    | datos ds => rfl
  · intro s i hempty
    show findById i (s.archivo.foldl cargarLinea (s.productos, 0)).1
      = findById i s.productos
    rw [foldl_cargarLinea_findById s.archivo (s.productos, 0) i, hempty]
    rfl

/-- Witness for C10 (amended): a missing file resets any state to empty,
and a Semana9-10 load of an empty file keeps the in-memory record. -/
theorem C10_testigo :
    cargar .ausente ⟨[(1, ⟨1, ['a'], 1, 1⟩)], [(['a'], {1})]⟩
        = cargar .ausente Inv11.empty
      ∧ findById 1 (cargarDesdeArchivo ⟨[⟨1, ['x'], 1, 1⟩], []⟩).1.productos
        = findById 1 [⟨1, ['x'], 1, 1⟩] :=
  ⟨C10_enmendada.1 .ausente ⟨[(1, ⟨1, ['a'], 1, 1⟩)], [(['a'], {1})]⟩ Inv11.empty
      (by decide),
    C10_enmendada.2.2 ⟨[⟨1, ['x'], 1, 1⟩], []⟩ 1 (by decide)⟩

end Inv
